import Mathlib

/-!
# Verification of the gooey translator

A shallow embedding of the gooey source-to-source translator
(`xlate.go` and the token-rewriting part of `parseFile`), together with
theorems settling the specification claims.

Modelling conventions:
* Go strings are byte slices; identifier names, tags and source text are
  embedded as `List Char`.  `strings.HasPrefix s p` is `p.isPrefixOf s`
  and `s[1:]` is `s.drop 1`.
* `go/ast` trees are embedded as the closed inductive `Node` below, one
  constructor per node class that the visitor in `xlate.go`
  distinguishes, plus a generic `other` for every remaining node kind
  (which the visitor traverses with a fresh context).  Each statement
  node carries a numeric `id` standing for the object's address, so that
  Go's pointer identity (`stmt == v` in `indexStmt`, `v.comm == a`,
  `c.assign`, `c.ptr`) becomes id equality; parser-produced nodes have
  pairwise distinct positive ids and generated nodes carry id 0.
* In-place mutation becomes explicit rebuilding: functions return the
  updated node.  A Go panic (the `indexStmt` panic, a failing type
  assertion, a nil-pointer dereference) is modelled by `Option`, with
  `none` for the panic.
-/

/-- token.ASSIGN (`=`) versus token.DEFINE (`:=`) as the operator stored
in an assignment or range statement. -/
inductive Tok where
  | assign
  | define
deriving DecidableEq, Repr

/-- The per-position classification produced by `processLhs`:
`token.ILLEGAL` for `_` or nil, `token.VAR` for colon-prefixed
identifiers, `token.ASSIGN` for anything else. -/
inductive Kind where
  | illegal
  | var
  | assignK
deriving DecidableEq, Repr

/-- The reserved identifier tag `cprefTag = "GOOEY_COLON_"`. -/
def cprefTag : List Char := "GOOEY_COLON_".data

/-- The reserved temporary tag `tempTag = "GOOEY_TEMP_"`. -/
def tempTag : List Char := "GOOEY_TEMP_".data

/-- An entry of `scanner.ErrorList`: a source position plus a message.
Only the offset component of `token.Position` is modelled. -/
structure Err where
  pos : Nat
  msg : String
deriving DecidableEq, Repr

/-- The embedded `go/ast` tree.  Statement-like constructors carry an
`id` modelling the node's address.  `assign` and `rangeS` carry the
source position used for error reporting; `ident` carries its position
for the `unexpected colon-prefix` error.  `initHeader` stands for the
four header statements `ForStmt`, `IfStmt`, `SwitchStmt` and
`TypeSwitchStmt`, whose direct children the visitor marks `init`;
`other` stands for every node kind the visitor's type switch does not
name (it traverses its children with a fresh visitor). -/
inductive Node where
  | nilE
  | ident (pos : Nat) (name : List Char)
  | assign (id pos : Nat) (lhs : List Node) (tok : Tok) (rhs : List Node)
  | labeled (id : Nat) (label : Node) (child : Node)
  | block (id : Nat) (body : List Node)
  | caseClause (id : Nat) (body : List Node)
  | commClause (id : Nat) (comm : Node) (body : List Node)
  | rangeS (id pos : Nat) (key value : Node) (tok : Tok) (x : Node) (body : Node)
  | initHeader (id : Nat) (children : List Node)
  | declS (id : Nat) (names : List Node) (values : List Node)
  | other (id : Nat) (children : List Node)

/-- processLhs takes a list of expressions and returns two counters and
the "type" of each expression: ILLEGAL for `_` or nil, VAR for
colon-prefixed identifiers (the colon is removed), ASSIGN for anything
else.  The in-place stripping of the colon prefix is modelled by also
returning the updated expression list. -/
def processLhs : List Node → Nat × Nat × List Kind × List Node
  | [] => (0, 0, [], [])
  | e :: rest =>
    let r := processLhs rest
    match e with
    | .nilE => (r.1, r.2.1, .illegal :: r.2.2.1, .nilE :: r.2.2.2)
    | .ident p n =>
      if [':'].isPrefixOf n then
        (r.1 + 1, r.2.1, .var :: r.2.2.1, .ident p (n.drop 1) :: r.2.2.2)
      else if n ≠ ['_'] then
        (r.1, r.2.1 + 1, .assignK :: r.2.2.1, .ident p n :: r.2.2.2)
      else
        (r.1, r.2.1, .illegal :: r.2.2.1, .ident p n :: r.2.2.2)
    | e =>
      (r.1, r.2.1 + 1, .assignK :: r.2.2.1, e :: r.2.2.2)

/-- The visitor state threaded through the tree walk: the `init` flag,
whether the current node is the `Comm` statement of its comm clause
(Go compares `v.comm == a` by pointer; the flag is set exactly when the
walk descends into that child), the id of the node owning the enclosing
statement list (`v.list`), and the ids of the innermost and outermost
enclosing labeled statements. -/
structure Ctx where
  init : Bool
  comm : Bool
  list : Option Nat
  ilabel : Option Nat
  olabel : Option Nat
deriving DecidableEq, Repr

/-- The visitor created at the top of `Visit`: `&visitor{x: v.x}`. -/
def freshCtx : Ctx := ⟨false, false, none, none, none⟩

/-- A recorded rewrite instruction (`type change` in xlate.go).
`assignId` models the `assign` pointer, `kind` is non-`none` exactly for
mixed changes, `listOwner` models the `list` pointer (`none` for a nil
pointer), `ptr` the optional innermost-label slot and `ref` the
reference statement. -/
structure Change where
  assignId : Nat
  kind : Option (List Kind)
  listOwner : Option Nat
  ptr : Option Nat
  ref : Option Nat
deriving DecidableEq, Repr

/-- The body of `visitor.assignStmt`: classify the left-hand side,
convert or report in init/comm position, otherwise record a change.
Returns the updated lhs, the updated operator, the errors added to
`elist` and the changes appended to `clist`. -/
def assignStep (ctx : Ctx) (id pos : Nat) (lhs : List Node) (tok : Tok) :
    List Node × Tok × List Err × List Change :=
  let r := processLhs lhs
  if r.1 = 0 then (r.2.2.2, tok, [], [])
  else if ctx.init || ctx.comm then
    if r.2.1 = 0 then (r.2.2.2, .define, [], [])
    else (r.2.2.2, tok, [⟨pos, "mixed assignment in init statement"⟩], [])
  else
    let c : Change :=
      ⟨id, if r.2.1 > 0 then some r.2.2.1 else none, ctx.list, ctx.ilabel,
        if ctx.ilabel.isSome then ctx.olabel else some id⟩
    (r.2.2.2, tok, [], [c])

/-- The body of `visitor.rangeStmt`: classify `(Key, Value)`, convert
the operator in place or report the range error.  Returns the updated
key and value, the updated operator and the errors added. -/
def rangeStep (pos : Nat) (key value : Node) (tok : Tok) :
    Node × Node × Tok × List Err :=
  let r := processLhs [key, value]
  let key' := r.2.2.2.getD 0 .nilE
  let value' := r.2.2.2.getD 1 .nilE
  if r.1 = 0 then (key', value', tok, [])
  else if r.2.1 = 0 then (key', value', .define, [])
  else (key', value', tok, [⟨pos, "mixed assignment in range"⟩])

/-- Specification-side single-position classifier, written from the
claim's words: absent or `_` is ignored, a colon-marked identifier is a
declaration, anything else is a reassignment. -/
def classifyOne : Node → Kind
  | .nilE => .illegal
  | .ident _ n =>
    if [':'].isPrefixOf n then .var
    else if n = ['_'] then .illegal
    else .assignK
  | _ => .assignK

/-- Specification-side marker stripping: a colon-marked identifier loses
its marker, every other expression is returned unchanged. -/
def stripOne : Node → Node
  | .ident p n => if [':'].isPrefixOf n then .ident p (n.drop 1) else .ident p n
  | e => e

/-- C4: the Declaration Classifier is a pure per-position
classification: each position nil or `_` is ignored, each colon-marked
identifier is stripped and classified declare, every other expression is
classified reassign; the two counters equal the number of declare and
reassign entries, and the only mutation is the marker stripping. -/
theorem processLhs_is_pointwise_classification (lhs : List Node) :
    processLhs lhs =
      ((lhs.map classifyOne).count .var, (lhs.map classifyOne).count .assignK,
        lhs.map classifyOne, lhs.map stripOne) := by
  induction lhs with
  | nil => rfl
  | cons e rest ih =>
    cases e with
    | nilE => simp [processLhs, ih, classifyOne, stripOne, List.count_cons]
    | ident p n =>
      by_cases hc : [':'].isPrefixOf n
      · simp [processLhs, ih, classifyOne, stripOne, hc, List.count_cons]
      · by_cases hu : n = ['_']
        · simp [processLhs, ih, classifyOne, stripOne, hc, hu, List.count_cons]
        · simp [processLhs, ih, classifyOne, stripOne, hc, hu, List.count_cons]
    | assign id pos l t r => simp [processLhs, ih, classifyOne, stripOne, List.count_cons]
    | labeled id lab c => simp [processLhs, ih, classifyOne, stripOne, List.count_cons]
    | block id b => simp [processLhs, ih, classifyOne, stripOne, List.count_cons]
    | caseClause id b => simp [processLhs, ih, classifyOne, stripOne, List.count_cons]
    | commClause id c b => simp [processLhs, ih, classifyOne, stripOne, List.count_cons]
    | rangeS id pos k v t x b => simp [processLhs, ih, classifyOne, stripOne, List.count_cons]
    | initHeader id c => simp [processLhs, ih, classifyOne, stripOne, List.count_cons]
    | declS id n v => simp [processLhs, ih, classifyOne, stripOne, List.count_cons]
    | other id c => simp [processLhs, ih, classifyOne, stripOne, List.count_cons]

/-- If no position is classified declare, `processLhs` strips nothing:
the returned expression list is the input. -/
theorem processLhs_decl_zero_unchanged (lhs : List Node)
    (h : (processLhs lhs).1 = 0) : (processLhs lhs).2.2.2 = lhs := by
  induction lhs with
  | nil => rfl
  | cons e rest ih =>
    cases e with
    | ident p n =>
      by_cases hc : [':'].isPrefixOf n
      · simp [processLhs, hc] at h
      · by_cases hu : n = ['_'] <;>
          · simp [processLhs, hc, hu] at h ⊢
            exact ih h
    | nilE => simp only [processLhs] at h ⊢; simp [ih h]
    | assign id pos l t r => simp only [processLhs] at h ⊢; simp [ih h]
    | labeled id lab c => simp only [processLhs] at h ⊢; simp [ih h]
    | block id b => simp only [processLhs] at h ⊢; simp [ih h]
    | caseClause id b => simp only [processLhs] at h ⊢; simp [ih h]
    | commClause id c b => simp only [processLhs] at h ⊢; simp [ih h]
    | rangeS id pos k v t x b => simp only [processLhs] at h ⊢; simp [ih h]
    | initHeader id c => simp only [processLhs] at h ⊢; simp [ih h]
    | declS id n v => simp only [processLhs] at h ⊢; simp [ih h]
    | other id c => simp only [processLhs] at h ⊢; simp [ih h]

/-- C3 counterexample: for the concrete mixed construct `:n, err = f()`
in init position, the recorded error message is
`mixed assignment in init statement`; no error with the claimed message
`mixed assignment in init/range position` is produced. -/
theorem assignStep_init_message_differs :
    (assignStep ⟨true, false, none, none, none⟩ 1 7
        [.ident 3 ":n".data, .ident 5 "err".data] .assign).2.2.1 =
      [⟨7, "mixed assignment in init statement"⟩] ∧
    ∀ e ∈ (assignStep ⟨true, false, none, none, none⟩ 1 7
        [.ident 3 ":n".data, .ident 5 "err".data] .assign).2.2.1,
      e.msg ≠ "mixed assignment in init/range position" := by
  constructor
  · rfl
  · decide

/-- C3 amended: in an init-position or communication-clause context an
assignment with zero declare entries is untouched; with only declare
entries its operator becomes declare-and-assign in place; with both
kinds an error with message `mixed assignment in init statement` is
recorded at the construct's position, the operator is unchanged and no
change is enqueued.  A range header behaves the same with message
`mixed assignment in range`. -/
theorem init_range_comm_three_way_rule :
    (∀ (ctx : Ctx) (id pos : Nat) (lhs : List Node) (tok : Tok),
      (ctx.init = true ∨ ctx.comm = true) →
      ((processLhs lhs).1 = 0 → assignStep ctx id pos lhs tok = (lhs, tok, [], [])) ∧
      ((processLhs lhs).1 > 0 → (processLhs lhs).2.1 = 0 →
        assignStep ctx id pos lhs tok = ((processLhs lhs).2.2.2, .define, [], [])) ∧
      ((processLhs lhs).1 > 0 → (processLhs lhs).2.1 > 0 →
        assignStep ctx id pos lhs tok =
          ((processLhs lhs).2.2.2, tok,
            [⟨pos, "mixed assignment in init statement"⟩], []))) ∧
    (∀ (pos : Nat) (key value : Node) (tok : Tok),
      ((processLhs [key, value]).1 = 0 →
        rangeStep pos key value tok = (key, value, tok, [])) ∧
      ((processLhs [key, value]).1 > 0 → (processLhs [key, value]).2.1 = 0 →
        rangeStep pos key value tok =
          ((processLhs [key, value]).2.2.2.getD 0 .nilE,
            (processLhs [key, value]).2.2.2.getD 1 .nilE, .define, [])) ∧
      ((processLhs [key, value]).1 > 0 → (processLhs [key, value]).2.1 > 0 →
        rangeStep pos key value tok =
          ((processLhs [key, value]).2.2.2.getD 0 .nilE,
            (processLhs [key, value]).2.2.2.getD 1 .nilE, tok,
            [⟨pos, "mixed assignment in range"⟩]))) := by
  constructor
  · intro ctx id pos lhs tok hic
    have hic' : (ctx.init || ctx.comm) = true := by
      rcases hic with h | h <;> simp [h]
    refine ⟨?_, ?_, ?_⟩
    · intro h0
      simp [assignStep, h0, processLhs_decl_zero_unchanged lhs h0]
    · intro hd ha
      have h1 : ¬ (processLhs lhs).1 = 0 := by omega
      simp [assignStep, h1, hic', ha]
    · intro hd ha
      have h1 : ¬ (processLhs lhs).1 = 0 := by omega
      have h2 : ¬ (processLhs lhs).2.1 = 0 := by omega
      simp [assignStep, h1, h2, hic']
  · intro pos key value tok
    refine ⟨?_, ?_, ?_⟩
    · intro h0
      have hu := processLhs_decl_zero_unchanged [key, value] h0
      simp [rangeStep, h0, hu]
    · intro hd ha
      have : ¬ (processLhs [key, value]).1 = 0 := by omega
      simp [rangeStep, this, ha]
    · intro hd ha
      have h1 : ¬ (processLhs [key, value]).1 = 0 := by omega
      have h2 : ¬ (processLhs [key, value]).2.1 = 0 := by omega
      simp [rangeStep, h1, h2]

/-- Witness for the amended C3 at concrete inputs: a pure-declare
assignment in a communication clause is converted in place to
declare-and-assign, and a mixed range header records the range error. -/
theorem init_range_comm_three_way_rule_witness :
    assignStep ⟨false, true, none, none, none⟩ 2 9 [.ident 4 ":a".data] .assign =
      ([.ident 4 "a".data], .define, [], []) ∧
    rangeStep 11 (.ident 6 ":k".data) (.ident 8 "v".data) .assign =
      (.ident 6 "k".data, .ident 8 "v".data, .assign,
        [⟨11, "mixed assignment in range"⟩]) := by
  constructor
  · have h := (init_range_comm_three_way_rule.1 ⟨false, true, none, none, none⟩ 2 9
      [.ident 4 ":a".data] .assign (Or.inr rfl)).2.1 (by decide) (by decide)
    exact h.trans rfl
  · have h := (init_range_comm_three_way_rule.2 11 (.ident 6 ":k".data) (.ident 8 "v".data)
      .assign).2.2 (by decide) (by decide)
    exact h.trans rfl

/-- The id carried by a statement-like node, used for pointer identity
(`stmt == v` in `indexStmt`).  Expression-only nodes (`nil`, plain
identifiers) never stand in statement lists searched by `indexStmt`. -/
def nodeId : Node → Option Nat
  | .nilE => none
  | .ident _ _ => none
  | .assign id _ _ _ _ => some id
  | .labeled id _ _ => some id
  | .block id _ => some id
  | .caseClause id _ => some id
  | .commClause id _ _ => some id
  | .rangeS id _ _ _ _ _ _ => some id
  | .initHeader id _ => some id
  | .declS id _ _ => some id
  | .other id _ => some id

/-- indexStmt: position of the first statement with the given identity
in the list; `none` models the `panic("indexStmt")` branch. -/
def indexStmt (list : List Node) (ref : Nat) : Option Nat :=
  match list with
  | [] => none
  | s :: rest =>
    if nodeId s = some ref then some 0 else (indexStmt rest ref).map (· + 1)

/-- The type assertion `expr.(*ast.Ident)`: `none` models the panic on a
non-identifier. -/
def asIdent : Node → Option Node
  | .ident p n => some (.ident p n)
  | _ => none

/-- The assertion loop of `applyNonMixed`
(`for i, expr := range c.assign.Lhs { idents[i] = expr.(*ast.Ident) }`):
`none` models the panic on a non-identifier entry. -/
def identsOf : List Node → Option (List Node)
  | [] => some []
  | e :: es =>
    match asIdent e, identsOf es with
    | some i, some is => some (i :: is)
    | _, _ => none

/-- makeDecl builds the `var names = values` declaration statement
(`DeclStmt{GenDecl{VAR, [ValueSpec{names, values}]}}`); generated nodes
carry id 0. -/
def makeDecl (names values : List Node) : Node := .declS 0 names values

mutual
/-- Dereference of the `c.assign` pointer: the position, left-hand side,
operator and right-hand side of the unique assignment with the given id,
searched in the current tree (Go holds the object directly; under the
distinct-id convention the search returns the same data). -/
def findAssignData (aid : Nat) : Node → Option (Nat × List Node × Tok × List Node)
  | .nilE => none
  | .ident _ _ => none
  | .assign id pos lhs tok rhs =>
    if id = aid then some (pos, lhs, tok, rhs)
    else findAssignDataL aid lhs <|> findAssignDataL aid rhs
  | .labeled _ lab child => findAssignData aid lab <|> findAssignData aid child
  | .block _ body => findAssignDataL aid body
  | .caseClause _ body => findAssignDataL aid body
  | .commClause _ comm body => findAssignData aid comm <|> findAssignDataL aid body
  | .rangeS _ _ key value _ x body =>
    findAssignData aid key <|> findAssignData aid value <|>
      findAssignData aid x <|> findAssignData aid body
  | .initHeader _ cs => findAssignDataL aid cs
  | .declS _ ns vs => findAssignDataL aid ns <|> findAssignDataL aid vs
  | .other _ cs => findAssignDataL aid cs

def findAssignDataL (aid : Nat) : List Node → Option (Nat × List Node × Tok × List Node)
  | [] => none
  | n :: ns => findAssignData aid n <|> findAssignDataL aid ns
end

mutual
/-- Mutation through the `c.assign` pointer: every assignment with the
given id (unique under the id convention) is replaced by `a'`. -/
def replaceAssign (aid : Nat) (a' : Node) : Node → Node
  | .nilE => .nilE
  | .ident p n => .ident p n
  | .assign id pos lhs tok rhs =>
    if id = aid then a'
    else .assign id pos (replaceAssignL aid a' lhs) tok (replaceAssignL aid a' rhs)
  | .labeled id lab child =>
    .labeled id (replaceAssign aid a' lab) (replaceAssign aid a' child)
  | .block id body => .block id (replaceAssignL aid a' body)
  | .caseClause id body => .caseClause id (replaceAssignL aid a' body)
  | .commClause id comm body =>
    .commClause id (replaceAssign aid a' comm) (replaceAssignL aid a' body)
  | .rangeS id pos key value tok x body =>
    .rangeS id pos (replaceAssign aid a' key) (replaceAssign aid a' value) tok
      (replaceAssign aid a' x) (replaceAssign aid a' body)
  | .initHeader id cs => .initHeader id (replaceAssignL aid a' cs)
  | .declS id ns vs => .declS id (replaceAssignL aid a' ns) (replaceAssignL aid a' vs)
  | .other id cs => .other id (replaceAssignL aid a' cs)

def replaceAssignL (aid : Nat) (a' : Node) : List Node → List Node
  | [] => []
  | n :: ns => replaceAssign aid a' n :: replaceAssignL aid a' ns
end

mutual
/-- Mutation through the `c.ptr` pointer (`*c.ptr = decl`): the child
slot of every labeled statement with the given id is overwritten. -/
def setLabelChild (lid : Nat) (s' : Node) : Node → Node
  | .nilE => .nilE
  | .ident p n => .ident p n
  | .assign id pos lhs tok rhs =>
    .assign id pos (setLabelChildL lid s' lhs) tok (setLabelChildL lid s' rhs)
  | .labeled id lab child =>
    if id = lid then .labeled id lab s'
    else .labeled id (setLabelChild lid s' lab) (setLabelChild lid s' child)
  | .block id body => .block id (setLabelChildL lid s' body)
  | .caseClause id body => .caseClause id (setLabelChildL lid s' body)
  | .commClause id comm body =>
    .commClause id (setLabelChild lid s' comm) (setLabelChildL lid s' body)
  | .rangeS id pos key value tok x body =>
    .rangeS id pos (setLabelChild lid s' key) (setLabelChild lid s' value) tok
      (setLabelChild lid s' x) (setLabelChild lid s' body)
  | .initHeader id cs => .initHeader id (setLabelChildL lid s' cs)
  | .declS id ns vs => .declS id (setLabelChildL lid s' ns) (setLabelChildL lid s' vs)
  | .other id cs => .other id (setLabelChildL lid s' cs)

def setLabelChildL (lid : Nat) (s' : Node) : List Node → List Node
  | [] => []
  | n :: ns => setLabelChild lid s' n :: setLabelChildL lid s' ns
end

mutual
/-- Mutation through the `c.list` pointer: rewrite the statement list
owned by the node with the given id (the body of a block, case clause
or comm clause).  `none` models both a failing rewrite (the `indexStmt`
panic) and a dangling owner, which the walk never produces. -/
def updateOwner (oid : Nat) (f : List Node → Option (List Node)) : Node → Option Node
  | .nilE => none
  | .ident _ _ => none
  | .assign id pos lhs tok rhs =>
    match updateOwnerL oid f lhs with
    | some lhs' => some (.assign id pos lhs' tok rhs)
    | none => (updateOwnerL oid f rhs).map (.assign id pos lhs tok ·)
  | .labeled id lab child =>
    match updateOwner oid f lab with
    | some lab' => some (.labeled id lab' child)
    | none => (updateOwner oid f child).map (.labeled id lab ·)
  | .block id body =>
    if id = oid then (f body).map (.block id ·)
    else (updateOwnerL oid f body).map (.block id ·)
  | .caseClause id body =>
    if id = oid then (f body).map (.caseClause id ·)
    else (updateOwnerL oid f body).map (.caseClause id ·)
  | .commClause id comm body =>
    if id = oid then (f body).map (.commClause id comm ·)
    else
      match updateOwner oid f comm with
      | some comm' => some (.commClause id comm' body)
      | none => (updateOwnerL oid f body).map (.commClause id comm ·)
  | .rangeS id pos key value tok x body =>
    match updateOwner oid f key with
    | some key' => some (.rangeS id pos key' value tok x body)
    | none =>
      match updateOwner oid f value with
      | some value' => some (.rangeS id pos key value' tok x body)
      | none =>
        match updateOwner oid f x with
        | some x' => some (.rangeS id pos key value tok x' body)
        | none => (updateOwner oid f body).map (.rangeS id pos key value tok x ·)
  | .initHeader id cs => (updateOwnerL oid f cs).map (.initHeader id ·)
  | .declS id ns vs =>
    match updateOwnerL oid f ns with
    | some ns' => some (.declS id ns' vs)
    | none => (updateOwnerL oid f vs).map (.declS id ns ·)
  | .other id cs => (updateOwnerL oid f cs).map (.other id ·)

def updateOwnerL (oid : Nat) (f : List Node → Option (List Node)) :
    List Node → Option (List Node)
  | [] => none
  | n :: ns =>
    match updateOwner oid f n with
    | some n' => some (n' :: ns)
    | none => (updateOwnerL oid f ns).map (n :: ·)
end

/-- The per-position loop of `applyMixed`: ignored positions keep their
expression, every other position is replaced by the next temporary
`GOOEY_TEMP_<tc>` and contributes one follow-up statement (a `var`
declaration for declare positions, a plain assignment otherwise).
Returns the new left-hand side, the follow-up statements and the
advanced counter; `none` models the `c.kind[i]` index panic or the
failing identifier assertion. -/
def mixedParts : List Kind → List Node → Nat → Option (List Node × List Node × Nat)
  | _, [], tc => some ([], [], tc)
  | [], _ :: _, _ => none
  | k :: ks, e :: es, tc =>
    if k = .illegal then
      (mixedParts ks es tc).map (fun r => (e :: r.1, r.2.1, r.2.2))
    else
      (if k = .var then
        (asIdent e).map (fun i =>
          makeDecl [i] [.ident 0 (tempTag ++ Nat.toDigits 10 tc)])
      else some (.assign 0 0 [e] .assign
        [.ident 0 (tempTag ++ Nat.toDigits 10 tc)])).bind fun stmt =>
      (mixedParts ks es (tc + 1)).map fun r =>
        (Node.ident 0 (tempTag ++ Nat.toDigits 10 tc) :: r.1, stmt :: r.2.1, r.2.2)

/-- The in-place replacement `(*c.list)[indexStmt(*c.list, c.assign)] =
decl` performed by `applyNonMixed` on the targeted statement list. -/
def setStmtAt (aid : Nat) (decl : Node) (l : List Node) : Option (List Node) :=
  match indexStmt l aid with
  | none => none
  | some i => some (l.set i decl)

/-- The splice `list[:pos+1] ++ after ++ list[pos+1:]` performed by
`applyMixed` on the targeted statement list, right after `c.ref`. -/
def insertStmtsAfter (r : Nat) (after : List Node) (l : List Node) :
    Option (List Node) :=
  match indexStmt l r with
  | none => none
  | some i => some (l.take (i + 1) ++ after ++ l.drop (i + 1))

/-- applyNonMixed replaces `c.assign` with a var declaration, either
through the label slot `c.ptr` or in place inside `c.list`. -/
def applyNonMixed (c : Change) (t : Node) : Option Node :=
  match findAssignData c.assignId t with
  | none => none
  | some ad =>
    match identsOf ad.2.1 with
    | none => none
    | some idents =>
      match c.ptr with
      | some lid => some (setLabelChild lid (makeDecl idents ad.2.2.2) t)
      | none =>
        match c.listOwner with
        | none => none
        | some oid =>
          updateOwner oid (setStmtAt c.assignId (makeDecl idents ad.2.2.2)) t

/-- applyMixed breaks `c.assign` into multiple statements using
temporary variables: the assignment's operator becomes declare-and
-assign and its targets become temporaries, and the follow-up statements
are spliced into `c.list` right after the position of `c.ref`. -/
def applyMixed (c : Change) (kind : List Kind) (t : Node) (tc : Nat) :
    Option (Node × Nat) :=
  match findAssignData c.assignId t with
  | none => none
  | some ad =>
    match mixedParts kind ad.2.1 tc with
    | none => none
    | some parts =>
      match c.listOwner, c.ref with
      | some oid, some r =>
        match updateOwner oid (insertStmtsAfter r parts.2.1)
          (replaceAssign c.assignId
            (Node.assign c.assignId ad.1 parts.1 .define ad.2.2.2) t) with
        | none => none
        | some t2 => some (t2, parts.2.2)
      | _, _ => none

/-- `change.apply`: dispatch on `c.kind`. -/
def applyChange (tc : Nat) (t : Node) (c : Change) : Option (Node × Nat) :=
  match c.kind with
  | none => (applyNonMixed c t).map (·, tc)
  | some k => applyMixed c k t tc

/-- The application loop of `xlateFile`: every recorded change applied
once, in list order, threading the temporary-name counter. -/
def applyAll (cs : List Change) (t : Node) (tc : Nat) : Option (Node × Nat) :=
  match cs with
  | [] => some (t, tc)
  | c :: rest =>
    match applyChange tc t c with
    | some (t', tc') => applyAll rest t' tc'
    | none => none

/-- The visit of one left-hand-side target after `processLhs` mutated it
in place: a top-level identifier has already had its colon stripped when
the walk reaches it, so its visit is recomputed on the stripped name;
any other expression is unchanged by `processLhs` and its given walk
result `w` stands.  `fixLhsEntry e (walkNode freshCtx e)` equals
`walkNode freshCtx (stripOne e)` (lemma `fixLhsEntry_strip`). -/
def fixLhsEntry (e : Node) (w : Node × List Err × List Change) :
    Node × List Err × List Change :=
  match e with
  | .ident p n =>
    let n' := if [':'].isPrefixOf n then n.drop 1 else n
    (.ident p n',
      if [':'].isPrefixOf n' then [⟨p, "unexpected colon-prefix"⟩] else [], [])
  | _ => w

mutual
/-- The `ast.Walk` traversal with `visitor.Visit`: each node is handled
with the context its parent created, fixes in-place what it can
(`assignStep`, `rangeStep`, the colon-prefix check on identifiers) and
its children are traversed with the context `Visit` returns.  The
children of an assignment or range statement are walked in their
mutated (colon-stripped) form, via `fixLhsEntry`.  Returns the updated
node and the errors and changes accumulated, in visit order. -/
def walkNode (ctx : Ctx) : Node → Node × List Err × List Change
  | .nilE => (.nilE, [], [])
  | .ident p n =>
    (.ident p n,
      if [':'].isPrefixOf n then [⟨p, "unexpected colon-prefix"⟩] else [], [])
  | .assign id pos lhs tok rhs =>
    let s := assignStep ctx id pos lhs tok
    let l := walkLhs lhs
    let r := walkList freshCtx rhs
    (.assign id pos l.1 s.2.1 r.1, s.2.2.1 ++ l.2.1 ++ r.2.1,
      s.2.2.2 ++ l.2.2 ++ r.2.2)
  | .labeled id lab child =>
    let ctx2 : Ctx := ⟨false, false, ctx.list, some id, some (ctx.olabel.getD id)⟩
    let lw := walkNode ctx2 lab
    let cw := walkNode ctx2 child
    (.labeled id lw.1 cw.1, lw.2.1 ++ cw.2.1, lw.2.2 ++ cw.2.2)
  | .block id body =>
    let bw := walkList ⟨false, false, some id, none, none⟩ body
    (.block id bw.1, bw.2)
  | .caseClause id body =>
    let bw := walkList ⟨false, false, some id, none, none⟩ body
    (.caseClause id bw.1, bw.2)
  | .commClause id comm body =>
    let cw := walkNode ⟨false, true, some id, none, none⟩ comm
    let bw := walkList ⟨false, false, some id, none, none⟩ body
    (.commClause id cw.1 bw.1, cw.2.1 ++ bw.2.1, cw.2.2 ++ bw.2.2)
  | .rangeS id pos key value tok x body =>
    let s := rangeStep pos key value tok
    let kw := fixLhsEntry key (walkNode freshCtx key)
    let vw := fixLhsEntry value (walkNode freshCtx value)
    let xw := walkNode freshCtx x
    let bw := walkNode freshCtx body
    (.rangeS id pos kw.1 vw.1 s.2.2.1 xw.1 bw.1,
      s.2.2.2 ++ kw.2.1 ++ vw.2.1 ++ xw.2.1 ++ bw.2.1,
      kw.2.2 ++ vw.2.2 ++ xw.2.2 ++ bw.2.2)
  | .initHeader id children =>
    let cw := walkList ⟨true, false, none, none, none⟩ children
    (.initHeader id cw.1, cw.2)
  | .declS id ns vs =>
    let nw := walkList freshCtx ns
    let vw := walkList freshCtx vs
    (.declS id nw.1 vw.1, nw.2.1 ++ vw.2.1, nw.2.2 ++ vw.2.2)
  | .other id children =>
    let cw := walkList freshCtx children
    (.other id cw.1, cw.2)

def walkList (ctx : Ctx) : List Node → List Node × List Err × List Change
  | [] => ([], [], [])
  | n :: ns =>
    let nw := walkNode ctx n
    let rw := walkList ctx ns
    (nw.1 :: rw.1, nw.2.1 ++ rw.2.1, nw.2.2 ++ rw.2.2)

/-- The walk of a mutated left-hand-side expression list. -/
def walkLhs : List Node → List Node × List Err × List Change
  | [] => ([], [], [])
  | e :: es =>
    let ew := fixLhsEntry e (walkNode freshCtx e)
    let rw := walkLhs es
    (ew.1 :: rw.1, ew.2.1 ++ rw.2.1, ew.2.2 ++ rw.2.2)
end

/-- The order `scanner.ErrorList` sorts by: source position. -/
def errLe (a b : Err) : Prop := a.pos ≤ b.pos

instance : DecidableRel errLe := fun a b => inferInstanceAs (Decidable (a.pos ≤ b.pos))

instance : IsTotal Err errLe := ⟨fun a b => Nat.le_total a.pos b.pos⟩

instance : IsTrans Err errLe := ⟨fun _ _ _ h1 h2 => Nat.le_trans h1 h2⟩

/-- `scanner.ErrorList.Sort`: sort by source position (the external
`sort.Sort` is modelled by an insertion sort; only sortedness and being
a permutation are relied on). -/
def elistSort (errs : List Err) : List Err :=
  List.insertionSort errLe errs

/-- xlateFile translates the file in place: walk the tree once, and if
any error accumulated return the sorted list without applying the
recorded changes, otherwise apply every change with a fresh counter.
`none` models a panic during change application. -/
def xlateFile (root : Node) : Option (Except (List Err) Node) :=
  if (walkNode freshCtx root).2.1.isEmpty then
    match applyAll (walkNode freshCtx root).2.2 (walkNode freshCtx root).1 0 with
    | some (t, _) => some (.ok t)
    | none => none
  else some (.error (elistSort (walkNode freshCtx root).2.1))

/-- Token kinds distinguished by the scan loop of `parseFile`.
`illegal` is the zero value filling the `last4` window before any token
was scanned; every token kind the loop does not inspect is `otherT`. -/
inductive TKind where
  | illegal
  | identT
  | colon
  | assignT
  | comma
  | defineT
  | otherT
deriving DecidableEq, Repr

/-- One scanned token: its offset into the source (the `token.Pos`
minus the file base), its kind and its literal. -/
structure ScanTok where
  pos : Nat
  tok : TKind
  lit : List Char
deriving DecidableEq, Repr

/-- The zero value of an entry of the `last4` window. -/
def zeroTok : ScanTok := ⟨0, .illegal, []⟩

/-- `src[low:high]`. -/
def srcSlice (src : List Char) (low high : Nat) : List Char :=
  (src.take high).drop low

/-- The message of the reserved-operator error. -/
def evilMsg : String := "evil token: \":=\""

/-- The token-rewriting scan loop of `parseFile`, over the token stream
the external scanner produces (the stream up to, not including, the
terminating EOF).  `i` is the loop counter; `p1`, `p2`, `p3` are the
previously scanned tokens `last4[(i-1)%4]`, `last4[(i-2)%4]`,
`last4[(i-3)%4]`, zero-valued while not yet written.  Returns the
rewritten buffer (with the trailing `src[low:]` flushed at EOF) and the
accumulated error list. -/
def scanLoop (src : List Char) : List ScanTok → Nat → Nat →
    ScanTok → ScanTok → ScanTok → List Char → List Err → List Char × List Err
  | [], _, low, _, _, _, buf, errs => (buf ++ srcSlice src low src.length, errs)
  | t :: rest, i, low, p1, p2, p3, buf, errs =>
    if t.tok = .defineT then
      scanLoop src rest (i + 1) low t p1 p2 buf (errs ++ [⟨t.pos, evilMsg⟩])
    else if i < 2 ∨ (t.tok ≠ .assignT ∧ t.tok ≠ .comma) then
      scanLoop src rest (i + 1) low t p1 p2 buf errs
    else if p1.tok ≠ .identT ∨ p2.tok ≠ .colon ∨ p1.lit = ['_'] ∨ p2.pos + 1 ≠ p1.pos then
      scanLoop src rest (i + 1) low t p1 p2 buf errs
    else
      let buf1 := buf ++ srcSlice src low p2.pos ++ [' '] ++ cprefTag
      let buf2 := buf1 ++ srcSlice src (p2.pos + 1) t.pos
      let buf3 :=
        if t.tok = .assignT ∧ (i < 3 ∨ p3.tok ≠ .comma) then buf2 ++ [':'] else buf2
      scanLoop src rest (i + 1) t.pos t p1 p2 buf3 errs

/-- The pre-parse portion of `parseFile`: run the scan loop from the
initial state; a non-empty error list is returned instead of the
rewritten buffer (the external parser is never reached). -/
def parseFilePre (src : List Char) (toks : List ScanTok) :
    Except (List Err) (List Char) :=
  if (scanLoop src toks 0 0 zeroTok zeroTok zeroTok [] []).2.isEmpty then
    .ok (scanLoop src toks 0 0 zeroTok zeroTok zeroTok [] []).1
  else .error (scanLoop src toks 0 0 zeroTok zeroTok zeroTok [] []).2

/-- C5: the encode action of the scan loop fires exactly on
`COLON IDENT (ASSIGN|COMMA)` with the colon adjacent to the identifier
and the identifier not `_`: the output skips the colon character,
splices a space plus the reserved tag before the identifier, and when
the terminating token is `=` and the token three back was not a comma a
`:` is inserted so that the `=` becomes `:=`. -/
theorem scanLoop_encode_iff (src : List Char) (rest : List ScanTok)
    (i low : Nat) (p1 p2 p3 : ScanTok) (buf : List Char) (errs : List Err)
    (t : ScanTok) (hnd : t.tok ≠ .defineT) (hi : 2 ≤ i) :
    scanLoop src (t :: rest) i low p1 p2 p3 buf errs =
      if (t.tok = .assignT ∨ t.tok = .comma) ∧ p2.tok = .colon ∧ p1.tok = .identT ∧
          p1.lit ≠ ['_'] ∧ p2.pos + 1 = p1.pos then
        scanLoop src rest (i + 1) t.pos t p1 p2
          (buf ++ srcSlice src low p2.pos ++ [' '] ++ cprefTag ++
            srcSlice src (p2.pos + 1) t.pos ++
            (if t.tok = .assignT ∧ (i < 3 ∨ p3.tok ≠ .comma) then [':'] else [])) errs
      else scanLoop src rest (i + 1) low t p1 p2 buf errs := by
  have h2 : ¬ i < 2 := by omega
  by_cases hc : (t.tok = .assignT ∨ t.tok = .comma) ∧ p2.tok = .colon ∧ p1.tok = .identT ∧
      p1.lit ≠ ['_'] ∧ p2.pos + 1 = p1.pos
  · obtain ⟨hor, hcol, hid, hlit, hpos⟩ := hc
    rw [if_pos ⟨hor, hcol, hid, hlit, hpos⟩]
    have hcont : ¬ (i < 2 ∨ (t.tok ≠ .assignT ∧ t.tok ≠ .comma)) := by
      rcases hor with h | h <;> simp [h2, h]
    have hskip : ¬ (p1.tok ≠ .identT ∨ p2.tok ≠ .colon ∨ p1.lit = ['_'] ∨
        p2.pos + 1 ≠ p1.pos) := by
      simp [hid, hcol, hlit, hpos]
    simp only [scanLoop, if_neg hnd, if_neg hcont, if_neg hskip]
    by_cases hins : t.tok = .assignT ∧ (i < 3 ∨ p3.tok ≠ .comma) <;>
      simp [hins, List.append_assoc]
  · rw [if_neg hc]
    by_cases hor : t.tok = .assignT ∨ t.tok = .comma
    · have hskip : p1.tok ≠ .identT ∨ p2.tok ≠ .colon ∨ p1.lit = ['_'] ∨
          p2.pos + 1 ≠ p1.pos := by
        by_contra hn
        push_neg at hn
        exact hc ⟨hor, hn.2.1, hn.1, hn.2.2.1, hn.2.2.2⟩
      have hcont : ¬ (i < 2 ∨ (t.tok ≠ .assignT ∧ t.tok ≠ .comma)) := by
        rcases hor with h | h <;> simp [h2, h]
      simp only [scanLoop, if_neg hnd, if_neg hcont, if_pos hskip]
    · have hcont : i < 2 ∨ (t.tok ≠ .assignT ∧ t.tok ≠ .comma) := by
        right
        push_neg at hor
        exact hor
      simp only [scanLoop, if_neg hnd, if_pos hcont]

/-- Witness for C5 on concrete input: scanning `x :n = 5` from the step
where the window holds `x`, `:`, `n` and the current token is the `=`
encodes the marked identifier and inserts the `:` repairing the
operator. -/
theorem scanLoop_encode_iff_witness :
    scanLoop "x :n = 5".data
        [⟨5, .assignT, "=".data⟩, ⟨7, .otherT, "5".data⟩] 3 0
        ⟨3, .identT, "n".data⟩ ⟨2, .colon, ":".data⟩ ⟨0, .identT, "x".data⟩ [] [] =
      ("x  GOOEY_COLON_n := 5".data, []) := by
  have h := scanLoop_encode_iff "x :n = 5".data [⟨7, .otherT, "5".data⟩] 3 0
    ⟨3, .identT, "n".data⟩ ⟨2, .colon, ":".data⟩ ⟨0, .identT, "x".data⟩ [] []
    ⟨5, .assignT, "=".data⟩ (by decide) (by decide)
  exact h.trans (by decide)

/-- The scan loop records exactly one `evil token` error per
declare-and-assign token scanned, and nothing else. -/
theorem scanLoop_errs (src : List Char) (toks : List ScanTok) (i low : Nat)
    (p1 p2 p3 : ScanTok) (buf : List Char) (errs : List Err) :
    (scanLoop src toks i low p1 p2 p3 buf errs).2 =
      errs ++ toks.filterMap
        (fun t => if t.tok = .defineT then some ⟨t.pos, evilMsg⟩ else none) := by
  induction toks generalizing i low p1 p2 p3 buf errs with
  | nil => simp [scanLoop]
  | cons t rest ih =>
    by_cases hd : t.tok = .defineT
    · simp only [scanLoop, if_pos hd]
      rw [ih]
      simp [hd, List.filterMap_cons]
    · simp only [scanLoop, if_neg hd]
      split
      · rw [ih]; simp [hd, List.filterMap_cons]
      · split
        · rw [ih]; simp [hd, List.filterMap_cons]
        · rw [ih]; simp [hd, List.filterMap_cons]

/-- C6: any input stream containing the declare-and-assign operator
makes `parseFile` record one `evil token` lexical error per occurrence
and return the error list instead of a tree. -/
theorem define_token_always_rejected (src : List Char) (toks : List ScanTok)
    (h : ∃ t ∈ toks, t.tok = .defineT) :
    parseFilePre src toks =
      .error (toks.filterMap
        (fun t => if t.tok = .defineT then some ⟨t.pos, evilMsg⟩ else none)) := by
  have he := scanLoop_errs src toks 0 0 zeroTok zeroTok zeroTok [] []
  rw [List.nil_append] at he
  have hne : toks.filterMap
      (fun t => if t.tok = .defineT then some (⟨t.pos, evilMsg⟩ : Err) else none) ≠ [] := by
    obtain ⟨t, ht, htok⟩ := h
    have hmem : (⟨t.pos, evilMsg⟩ : Err) ∈ toks.filterMap
        (fun t => if t.tok = .defineT then some (⟨t.pos, evilMsg⟩ : Err) else none) := by
      simp only [List.mem_filterMap]
      exact ⟨t, ht, by simp [htok]⟩
    exact List.ne_nil_of_mem hmem
  simp only [parseFilePre, he]
  simp [List.isEmpty_iff, hne]

/-- Witness for C6: the single-token stream `:=` is rejected with the
evil-token error. -/
theorem define_token_always_rejected_witness :
    parseFilePre ":=".data [⟨0, .defineT, ":=".data⟩] =
      .error [⟨0, evilMsg⟩] := by
  have h := define_token_always_rejected ":=".data [⟨0, .defineT, ":=".data⟩]
    ⟨⟨0, .defineT, ":=".data⟩, List.mem_singleton.mpr rfl, rfl⟩
  exact h.trans rfl

/-- A list consisting only of identifiers passes the identifier
assertion loop `identsOf`. -/
theorem identsOf_isSome_of_idents (l : List Node)
    (h : ∀ e ∈ l, ∃ p n, e = Node.ident p n) : (identsOf l).isSome := by
  induction l with
  | nil => simp [identsOf]
  | cons e rest ih =>
    obtain ⟨p, n, rfl⟩ := h e (List.mem_cons_self e rest)
    have hr := ih fun e he => h e (List.mem_cons_of_mem _ he)
    obtain ⟨v, hv⟩ := Option.isSome_iff_exists.mp hr
    simp [identsOf, asIdent, hv]

/-- C9: when `processLhs` reports zero reassign entries on a nil-free
left-hand side (the parser never produces nil entries in an assignment),
every processed target is an identifier, so the `expr.(*ast.Ident)`
assertion sequence of `applyNonMixed` succeeds and a labeled non-mixed
change applies without panicking. -/
theorem nonmixed_lhs_all_idents (lhs : List Node) (d : Nat) (k : List Kind)
    (lhs' : List Node) (h : processLhs lhs = (d, 0, k, lhs'))
    (hnil : Node.nilE ∉ lhs) :
    (∀ e ∈ lhs', ∃ p n, e = Node.ident p n) ∧
    (identsOf lhs').isSome ∧
    ∀ (t : Node) (aid pos lid : Nat) (tok : Tok) (rhs : List Node),
      findAssignData aid t = some (pos, lhs', tok, rhs) →
      applyNonMixed ⟨aid, none, none, some lid, none⟩ t ≠ none := by
  have hall : ∀ e ∈ lhs', ∃ p n, e = Node.ident p n := by
    have hc := processLhs_is_pointwise_classification lhs
    rw [hc] at h
    have hcount : (lhs.map classifyOne).count .assignK = 0 := by
      have := congrArg (fun q => q.2.1) h
      simpa using this
    have hlhs' : lhs' = lhs.map stripOne := by
      have := congrArg (fun q => q.2.2.2) h
      simpa using this.symm
    rw [List.count_eq_zero] at hcount
    subst hlhs'
    intro e he
    rw [List.mem_map] at he
    obtain ⟨a, ha, rfl⟩ := he
    have hk : classifyOne a ≠ .assignK := fun hx =>
      hcount (List.mem_map.mpr ⟨a, ha, hx⟩)
    cases a with
    | nilE => exact absurd ha hnil
    | ident p n =>
      by_cases hcol : [':'].isPrefixOf n
      · exact ⟨p, n.drop 1, by simp [stripOne, hcol]⟩
      · exact ⟨p, n, by simp [stripOne, hcol]⟩
    | assign id pos l t r => exact absurd rfl hk
    | labeled id lab c => exact absurd rfl hk
    | block id b => exact absurd rfl hk
    | caseClause id b => exact absurd rfl hk
    | commClause id c b => exact absurd rfl hk
    | rangeS id pos ky v t x b => exact absurd rfl hk
    | initHeader id c => exact absurd rfl hk
    | declS id n v => exact absurd rfl hk
    | other id c => exact absurd rfl hk
  have hsome := identsOf_isSome_of_idents lhs' hall
  refine ⟨hall, hsome, ?_⟩
  intro t aid pos lid tok rhs hfind
  obtain ⟨ids, hids⟩ := Option.isSome_iff_exists.mp hsome
  simp [applyNonMixed, hfind, hids]

/-- Witness for C9: the processed targets of `:a, _ = ...` pass the
identifier assertion and the labeled non-mixed change applies. -/
theorem nonmixed_lhs_all_idents_witness :
    (identsOf [Node.ident 1 "a".data, Node.ident 2 "_".data]).isSome ∧
    applyNonMixed ⟨5, none, none, some 3, none⟩
      (.labeled 3 (.ident 0 "L".data)
        (.assign 5 9 [.ident 1 "a".data, .ident 2 "_".data] .assign
          [.other 7 []])) ≠ none := by
  have h := nonmixed_lhs_all_idents [.ident 1 ":a".data, .ident 2 "_".data] 1
    [.var, .illegal] [.ident 1 "a".data, .ident 2 "_".data] rfl (by simp)
  exact ⟨h.2.1, h.2.2 _ 5 9 3 .assign [.other 7 []] rfl⟩

/-- Specification-side new left-hand side of a mixed rewrite, written
from the claim's words: ignored positions keep their original
expression, every other position becomes the next freshly minted
temporary name, numbered left to right. -/
def specMixedLhs : List Kind → List Node → Nat → List Node
  | k :: ks, e :: es, tc =>
    if k = .illegal then e :: specMixedLhs ks es tc
    else .ident 0 (tempTag ++ Nat.toDigits 10 tc) :: specMixedLhs ks es (tc + 1)
  | _, _, _ => []

/-- Specification-side follow-up statements of a mixed rewrite, written
from the claim's words: one statement per non-ignored original target,
in original left-to-right order — a declaration `var name = temp` for a
declare target, a plain assignment `name = temp` for a reassign
target. -/
def specFollowUps : List Kind → List Node → Nat → List Node
  | k :: ks, e :: es, tc =>
    if k = .illegal then specFollowUps ks es tc
    else
      (if k = .var then makeDecl [e] [.ident 0 (tempTag ++ Nat.toDigits 10 tc)]
       else .assign 0 0 [e] .assign [.ident 0 (tempTag ++ Nat.toDigits 10 tc)]) ::
        specFollowUps ks es (tc + 1)
  | _, _, _ => []

/-- The loop of `applyMixed` computes exactly the specification-side
left-hand side and follow-up list, and advances the counter once per
non-ignored position. -/
theorem mixedParts_spec (kind : List Kind) (lhs : List Node) (tc : Nat)
    (hlen : kind.length = lhs.length)
    (hvar : ∀ i : Nat, kind[i]? = some Kind.var →
      ∃ p n, lhs[i]? = some (Node.ident p n)) :
    mixedParts kind lhs tc =
      some (specMixedLhs kind lhs tc, specFollowUps kind lhs tc,
        tc + (kind.filter (fun k => k ≠ Kind.illegal)).length) := by
  induction kind generalizing lhs tc with
  | nil =>
    cases lhs with
    | nil => simp [mixedParts, specMixedLhs, specFollowUps]
    | cons e es => simp at hlen
  | cons k ks ih =>
    cases lhs with
    | nil => simp at hlen
    | cons e es =>
      have hlen' : ks.length = es.length := by simpa using hlen
      have hvar' : ∀ i : Nat, ks[i]? = some Kind.var →
          ∃ p n, es[i]? = some (Node.ident p n) := by
        intro i hi
        have := hvar (i + 1) (by simpa using hi)
        simpa using this
      by_cases hk : k = Kind.illegal
      · subst hk
        simp [mixedParts, specMixedLhs, specFollowUps, ih es tc hlen' hvar']
      · by_cases hv : k = Kind.var
        · subst hv
          obtain ⟨p, n, hpn⟩ := hvar 0 (by simp)
          have he : e = Node.ident p n := by simpa using hpn
          subst he
          simp only [mixedParts, specMixedLhs, specFollowUps, if_neg hk, if_pos rfl,
            asIdent, ih es (tc + 1) hlen' hvar', List.filter_cons]
          simp [Prod.ext_iff]
          omega
        · have hka : k = Kind.assignK := by cases k <;> simp_all
          subst hka
          simp only [mixedParts, specMixedLhs, specFollowUps, if_neg hk, if_neg hv,
            ih es (tc + 1) hlen' hvar', List.filter_cons]
          simp [Prod.ext_iff]
          omega

/-- A chain of labeled statements around a statement, outermost
first. -/
def wrapLabels : List (Nat × Node) → Node → Node
  | [], a => a
  | (lid, lab) :: ls, a => .labeled lid lab (wrapLabels ls a)

/-- The identity of a label chain is its outermost node's identity. -/
theorem nodeId_wrapLabels_congr (ls : List (Nat × Node)) (a b : Node)
    (h : nodeId a = nodeId b) :
    nodeId (wrapLabels ls a) = nodeId (wrapLabels ls b) := by
  cases ls with
  | nil => simpa [wrapLabels] using h
  | cons pr rest => simp [wrapLabels, nodeId]

/-- Replacing the assignment inside a label chain none of whose labels
contains it rewrites exactly the chain's innermost statement. -/
theorem replaceAssign_wrapLabels (aid : Nat) (a' : Node) (ls : List (Nat × Node))
    (pos : Nat) (lhs rhs : List Node) (tok : Tok)
    (hls : ∀ pr ∈ ls, replaceAssign aid a' pr.2 = pr.2) :
    replaceAssign aid a' (wrapLabels ls (.assign aid pos lhs tok rhs)) =
      wrapLabels ls a' := by
  induction ls with
  | nil => simp [wrapLabels, replaceAssign]
  | cons pr rest ih =>
    obtain ⟨lid, lab⟩ := pr
    simp only [wrapLabels, replaceAssign,
      hls ⟨lid, lab⟩ (List.mem_cons_self _ _),
      ih fun q hq => hls q (List.mem_cons_of_mem _ hq)]

/-- `replaceAssignL` distributes over append. -/
theorem replaceAssignL_append (aid : Nat) (a' : Node) (l1 l2 : List Node) :
    replaceAssignL aid a' (l1 ++ l2) =
      replaceAssignL aid a' l1 ++ replaceAssignL aid a' l2 := by
  induction l1 with
  | nil => simp [replaceAssignL]
  | cons n ns ih => simp [replaceAssignL, ih]

/-- `indexStmt` finds the first identity match after a mismatching
prefix. -/
theorem indexStmt_append (pre : List Node) (w : Node) (post : List Node) (r : Nat)
    (hpre : ∀ e ∈ pre, nodeId e ≠ some r) (hw : nodeId w = some r) :
    indexStmt (pre ++ w :: post) r = some pre.length := by
  induction pre with
  | nil => simp [indexStmt, hw]
  | cons e es ih =>
    have he := hpre e (List.mem_cons_self _ _)
    have h2 := ih fun q hq => hpre q (List.mem_cons_of_mem _ hq)
    show indexStmt (e :: (es ++ w :: post)) r = some (es.length + 1)
    simp only [indexStmt, if_neg he]
    rw [h2]
    rfl

theorem take_append_cons {α : Type} (pre post : List α) (w : α) :
    (pre ++ w :: post).take (pre.length + 1) = pre ++ [w] := by
  induction pre with
  | nil => simp
  | cons a t ih => simp [ih]

theorem drop_append_cons {α : Type} (pre post : List α) (w : α) :
    (pre ++ w :: post).drop (pre.length + 1) = post := by
  induction pre with
  | nil => simp
  | cons a t ih => simp [ih]

/-- C1: applying a recorded mixed Change rewrites the assignment in
place — its operator becomes declare-and-assign, every non-ignored
target becomes the next fresh temporary (ignored positions keep their
expression), the right-hand sides are untouched — and inserts, right
after the resolved position of the construct (the outermost label if
labeled, the construct itself otherwise), one follow-up statement per
non-ignored original target in left-to-right order: a declaration for
each declare target, a plain assignment for each reassign target.  The
enclosing list is given as `pre ++ entry :: post` where `entry` is the
construct under its (possibly empty) label chain; the `replaceAssignL`
and `nodeId` hypotheses state the identity conventions (the assignment
occurs only inside `entry`, no earlier entry is the reference, the
reference is `entry` itself). -/
theorem applyMixed_rewrites_and_inserts
    (aid oid r pos tc : Nat) (optr : Option Nat)
    (kind : List Kind) (lhs rhs : List Node) (tok : Tok)
    (pre post : List Node) (ls : List (Nat × Node))
    (hmixed : 0 < kind.count .var ∧ 0 < kind.count .assignK)
    (hlen : kind.length = lhs.length)
    (hvar : ∀ i : Nat, kind[i]? = some Kind.var →
      ∃ p n, lhs[i]? = some (Node.ident p n))
    (hfind : findAssignData aid
        (.block oid (pre ++ wrapLabels ls (.assign aid pos lhs tok rhs) :: post)) =
      some (pos, lhs, tok, rhs))
    (hpre : replaceAssignL aid
        (.assign aid pos (specMixedLhs kind lhs tc) .define rhs) pre = pre)
    (hpost : replaceAssignL aid
        (.assign aid pos (specMixedLhs kind lhs tc) .define rhs) post = post)
    (hls : ∀ pr ∈ ls, replaceAssign aid
        (.assign aid pos (specMixedLhs kind lhs tc) .define rhs) pr.2 = pr.2)
    (hprer : ∀ e ∈ pre, nodeId e ≠ some r)
    (href : nodeId (wrapLabels ls (.assign aid pos lhs tok rhs)) = some r) :
    applyMixed ⟨aid, some kind, some oid, optr, some r⟩ kind
        (.block oid (pre ++ wrapLabels ls (.assign aid pos lhs tok rhs) :: post)) tc =
      some (.block oid
          (pre ++ wrapLabels ls (.assign aid pos (specMixedLhs kind lhs tc) .define rhs)
            :: (specFollowUps kind lhs tc ++ post)),
        tc + (kind.filter (fun k => k ≠ Kind.illegal)).length) := by
  have hparts := mixedParts_spec kind lhs tc hlen hvar
  have hrepl : replaceAssignL aid
      (.assign aid pos (specMixedLhs kind lhs tc) .define rhs)
      (pre ++ wrapLabels ls (.assign aid pos lhs tok rhs) :: post) =
      pre ++ wrapLabels ls
        (.assign aid pos (specMixedLhs kind lhs tc) .define rhs) :: post := by
    simp only [replaceAssignL_append, hpre, replaceAssignL, hpost,
      replaceAssign_wrapLabels aid _ ls pos lhs rhs tok hls]
  have hidx : indexStmt
      (pre ++ wrapLabels ls (.assign aid pos (specMixedLhs kind lhs tc) .define rhs)
        :: post) r = some pre.length := by
    refine indexStmt_append pre _ post r hprer ?_
    rw [nodeId_wrapLabels_congr ls _ (.assign aid pos lhs tok rhs) (by simp [nodeId])]
    exact href
  simp only [applyMixed, hfind, Option.bind_eq_bind, Option.some_bind, hparts,
    replaceAssign, hrepl, updateOwner, insertStmtsAfter, hidx, if_pos rfl, if_true]
  rw [take_append_cons, drop_append_cons]
  simp

/-- Witness for C1: applying the mixed change recorded for
`:n, err = f()` yields the declare-and-assign of two fresh temporaries
followed by `var n = GOOEY_TEMP_0` and `err = GOOEY_TEMP_1`. -/
theorem applyMixed_rewrites_and_inserts_witness :
    applyMixed ⟨3, some [.var, .assignK], some 2, none, some 3⟩ [.var, .assignK]
        (.block 2 [.assign 3 10 [.ident 11 "n".data, .ident 13 "err".data]
          .assign [.other 4 []]]) 0 =
      some (.block 2 [
        .assign 3 10 [.ident 0 "GOOEY_TEMP_0".data, .ident 0 "GOOEY_TEMP_1".data]
          .define [.other 4 []],
        .declS 0 [.ident 11 "n".data] [.ident 0 "GOOEY_TEMP_0".data],
        .assign 0 0 [.ident 13 "err".data] .assign [.ident 0 "GOOEY_TEMP_1".data]],
        2) := by
  have h := applyMixed_rewrites_and_inserts 3 2 3 10 0 none [.var, .assignK]
    [.ident 11 "n".data, .ident 13 "err".data] [.other 4 []] .assign [] [] []
    (by decide) (by decide)
    (by
      intro i hi
      match i with
      | 0 => exact ⟨11, "n".data, rfl⟩
      | 1 => simp at hi
      | (n + 2) => simp at hi)
    rfl rfl rfl
    (fun pr hpr => absurd hpr (List.not_mem_nil _))
    (fun e he => absurd he (List.not_mem_nil _))
    rfl
  exact h.trans rfl

/-- C8: when the walk accumulates at least one error, `xlateFile`
returns the error list sorted by source position (a permutation of the
accumulated errors), applies no recorded change, and produces no
translated tree. -/
theorem xlateFile_all_or_nothing_sorted (root : Node)
    (h : (walkNode freshCtx root).2.1 ≠ []) :
    xlateFile root = some (.error (elistSort (walkNode freshCtx root).2.1)) ∧
    (elistSort (walkNode freshCtx root).2.1).Sorted errLe ∧
    (elistSort (walkNode freshCtx root).2.1).Perm (walkNode freshCtx root).2.1 ∧
    ∀ t, xlateFile root ≠ some (.ok t) := by
  have hne : ¬ (walkNode freshCtx root).2.1.isEmpty = true := by
    simpa [List.isEmpty_iff] using h
  have hx : xlateFile root = some (.error (elistSort (walkNode freshCtx root).2.1)) := by
    simp [xlateFile, hne]
  refine ⟨hx, List.sorted_insertionSort errLe _, List.perm_insertionSort errLe _, ?_⟩
  intro t ht
  rw [hx] at ht
  simp at ht

/-- Witness for C8 on a concrete tree with two stray markers reported
out of source order: the returned list is sorted by position. -/
theorem xlateFile_all_or_nothing_sorted_witness :
    xlateFile (.other 1 [.ident 9 ":a".data, .ident 2 ":b".data]) =
      some (.error [⟨2, "unexpected colon-prefix"⟩, ⟨9, "unexpected colon-prefix"⟩]) ∧
    ([⟨2, "unexpected colon-prefix"⟩, ⟨9, "unexpected colon-prefix"⟩] : List Err).Sorted
      errLe := by
  have h := xlateFile_all_or_nothing_sorted
    (.other 1 [.ident 9 ":a".data, .ident 2 ":b".data]) (by decide)
  exact ⟨h.1.trans rfl, h.2.1⟩

mutual
/-- No identifier anywhere in the node carries the declaration
marker. -/
def noMarkers : Node → Bool
  | .nilE => true
  | .ident _ n => !([':'].isPrefixOf n)
  | .assign _ _ lhs _ rhs => noMarkersL lhs && noMarkersL rhs
  | .labeled _ lab child => noMarkers lab && noMarkers child
  | .block _ body => noMarkersL body
  | .caseClause _ body => noMarkersL body
  | .commClause _ comm body => noMarkers comm && noMarkersL body
  | .rangeS _ _ key value _ x body =>
    noMarkers key && noMarkers value && noMarkers x && noMarkers body
  | .initHeader _ cs => noMarkersL cs
  | .declS _ ns vs => noMarkersL ns && noMarkersL vs
  | .other _ cs => noMarkersL cs

def noMarkersL : List Node → Bool
  | [] => true
  | n :: ns => noMarkers n && noMarkersL ns
end

theorem noMarkersL_mem {l : List Node} (h : noMarkersL l = true) :
    ∀ n ∈ l, noMarkers n = true := by
  induction l with
  | nil => intro n hn; exact absurd hn (List.not_mem_nil _)
  | cons a t ih =>
    simp only [noMarkersL, Bool.and_eq_true] at h
    intro n hn
    rcases List.mem_cons.mp hn with rfl | hn
    · exact h.1
    · exact ih h.2 n hn

/-- A marker-free left-hand side has zero declare entries. -/
theorem processLhs_decl_zero_of_noMarkers (lhs : List Node)
    (h : noMarkersL lhs = true) : (processLhs lhs).1 = 0 := by
  rw [processLhs_is_pointwise_classification]
  simp only
  rw [List.count_eq_zero]
  intro hmem
  rw [List.mem_map] at hmem
  obtain ⟨a, ha, hk⟩ := hmem
  have hnm := noMarkersL_mem h a ha
  cases a with
  | ident p n =>
    simp only [classifyOne] at hk
    simp only [noMarkers, Bool.not_eq_true'] at hnm
    rw [hnm] at hk
    by_cases hu : n = ['_'] <;> simp [hu] at hk
  | nilE => simp [classifyOne] at hk
  | assign id pos l t r => simp [classifyOne] at hk
  | labeled id lab c => simp [classifyOne] at hk
  | block id b => simp [classifyOne] at hk
  | caseClause id b => simp [classifyOne] at hk
  | commClause id c b => simp [classifyOne] at hk
  | rangeS id pos k v t x b => simp [classifyOne] at hk
  | initHeader id c => simp [classifyOne] at hk
  | declS id n v => simp [classifyOne] at hk
  | other id c => simp [classifyOne] at hk

/-- On a marker-free left-hand side `assignStmt` does nothing. -/
theorem assignStep_id_of_noMarkers (ctx : Ctx) (id pos : Nat) (lhs : List Node)
    (tok : Tok) (h : noMarkersL lhs = true) :
    assignStep ctx id pos lhs tok = (lhs, tok, [], []) := by
  have h0 := processLhs_decl_zero_of_noMarkers lhs h
  simp [assignStep, h0, processLhs_decl_zero_unchanged lhs h0]

mutual
/-- The walk leaves a marker-free node unchanged and reports nothing. -/
theorem walkNode_id : ∀ (t : Node) (ctx : Ctx), noMarkers t = true →
    walkNode ctx t = (t, [], [])
  | .nilE, _, _ => rfl
  | .ident p n, ctx, h => by
    simp only [noMarkers, Bool.not_eq_true'] at h
    simp [walkNode, h]
  | .assign id pos lhs tok rhs, ctx, h => by
    simp only [noMarkers, Bool.and_eq_true] at h
    simp [walkNode, assignStep_id_of_noMarkers ctx id pos lhs tok h.1,
      walkLhs_id lhs h.1, walkList_id rhs freshCtx h.2]
  | .labeled id lab child, ctx, h => by
    simp only [noMarkers, Bool.and_eq_true] at h
    simp [walkNode, walkNode_id lab _ h.1, walkNode_id child _ h.2]
  | .block id body, ctx, h => by
    simp only [noMarkers] at h
    simp [walkNode, walkList_id body _ h]
  | .caseClause id body, ctx, h => by
    simp only [noMarkers] at h
    simp [walkNode, walkList_id body _ h]
  | .commClause id comm body, ctx, h => by
    simp only [noMarkers, Bool.and_eq_true] at h
    simp [walkNode, walkNode_id comm _ h.1, walkList_id body _ h.2]
  | .rangeS id pos key value tok x body, ctx, h => by
    simp only [noMarkers, Bool.and_eq_true] at h
    obtain ⟨⟨⟨hk, hv⟩, hx⟩, hb⟩ := h
    have hkv : noMarkersL [key, value] = true := by
      simp [noMarkersL, hk, hv]
    have h0 := processLhs_decl_zero_of_noMarkers [key, value] hkv
    have hu := processLhs_decl_zero_unchanged [key, value] h0
    have hrs : rangeStep pos key value tok = (key, value, tok, []) := by
      simp [rangeStep, h0, hu]
    simp [walkNode, hrs, fixLhsEntry_id key hk, fixLhsEntry_id value hv,
      walkNode_id x _ hx, walkNode_id body _ hb]
  | .initHeader id cs, ctx, h => by
    simp only [noMarkers] at h
    simp [walkNode, walkList_id cs _ h]
  | .declS id ns vs, ctx, h => by
    simp only [noMarkers, Bool.and_eq_true] at h
    simp [walkNode, walkList_id ns _ h.1, walkList_id vs _ h.2]
  | .other id cs, ctx, h => by
    simp only [noMarkers] at h
    simp [walkNode, walkList_id cs _ h]

theorem walkList_id : ∀ (l : List Node) (ctx : Ctx), noMarkersL l = true →
    walkList ctx l = (l, [], [])
  | [], _, _ => rfl
  | n :: ns, ctx, h => by
    simp only [noMarkersL, Bool.and_eq_true] at h
    simp [walkList, walkNode_id n _ h.1, walkList_id ns _ h.2]

/-- The visit of one marker-free left-hand-side entry is the identity:
for an identifier no stripping occurs and no error fires, and any other
expression walks unchanged. -/
theorem fixLhsEntry_id : ∀ (e : Node), noMarkers e = true →
    fixLhsEntry e (walkNode freshCtx e) = (e, [], [])
  | .ident p n, h => by
    simp only [noMarkers, Bool.not_eq_true'] at h
    simp [fixLhsEntry, h]
  | .nilE, h => walkNode_id .nilE freshCtx h
  | .assign id pos lhs tok rhs, h => walkNode_id (.assign id pos lhs tok rhs) freshCtx h
  | .labeled id lab child, h => walkNode_id (.labeled id lab child) freshCtx h
  | .block id body, h => walkNode_id (.block id body) freshCtx h
  | .caseClause id body, h => walkNode_id (.caseClause id body) freshCtx h
  | .commClause id comm body, h => walkNode_id (.commClause id comm body) freshCtx h
  | .rangeS id pos key value tok x body, h =>
    walkNode_id (.rangeS id pos key value tok x body) freshCtx h
  | .initHeader id cs, h => walkNode_id (.initHeader id cs) freshCtx h
  | .declS id ns vs, h => walkNode_id (.declS id ns vs) freshCtx h
  | .other id cs, h => walkNode_id (.other id cs) freshCtx h

theorem walkLhs_id : ∀ (l : List Node), noMarkersL l = true →
    walkLhs l = (l, [], [])
  | [], _ => rfl
  | e :: es, h => by
    simp only [noMarkersL, Bool.and_eq_true] at h
    simp [walkLhs, fixLhsEntry_id e h.1, walkLhs_id es h.2]
end

/-- A marker-free file translates to itself: the walk is the identity
and there is nothing to apply. -/
theorem xlateFile_id_of_noMarkers (root : Node) (h : noMarkers root = true) :
    xlateFile root = some (.ok root) := by
  have hw := walkNode_id root freshCtx h
  simp [xlateFile, hw, applyAll]

/-- C2: on an input with zero declaration markers the whole translation
is the identity — the walk reports nothing and the tree is returned
unchanged — and, at the level of a single construct, an assignment whose
classification has zero declare entries is left completely untouched by
the Statement Transformer: no mutation, no error, no change enqueued. -/
theorem no_marker_translation_identity :
    (∀ root : Node, noMarkers root = true → xlateFile root = some (.ok root)) ∧
    (∀ (ctx : Ctx) (id pos : Nat) (lhs : List Node) (tok : Tok),
      (processLhs lhs).1 = 0 →
      assignStep ctx id pos lhs tok = (lhs, tok, [], [])) := by
  constructor
  · exact xlateFile_id_of_noMarkers
  · intro ctx id pos lhs tok h0
    simp [assignStep, h0, processLhs_decl_zero_unchanged lhs h0]

/-- Witness for C2: a concrete marker-free file round-trips unchanged,
and a concrete zero-declare assignment is untouched. -/
theorem no_marker_translation_identity_witness :
    xlateFile (.other 1 [.block 2
        [.assign 3 4 [.ident 5 "x".data] .assign [.ident 6 "y".data]]]) =
      some (.ok (.other 1 [.block 2
        [.assign 3 4 [.ident 5 "x".data] .assign [.ident 6 "y".data]]])) ∧
    assignStep freshCtx 3 4 [.ident 5 "x".data, .ident 7 "_".data] .assign =
      ([.ident 5 "x".data, .ident 7 "_".data], .assign, [], []) := by
  exact ⟨no_marker_translation_identity.1 _ (by decide),
    no_marker_translation_identity.2 freshCtx 3 4 _ .assign (by decide)⟩

theorem noMarkersL_iff (l : List Node) :
    noMarkersL l = true ↔ ∀ n ∈ l, noMarkers n = true := by
  induction l with
  | nil => simp [noMarkersL]
  | cons a t ih => simp [noMarkersL, Bool.and_eq_true, ih]

mutual
/-- An error-free walk leaves a marker-free tree: every stray marker is
either stripped by `processLhs` or reported. -/
theorem walkNode_noMarkers : ∀ (t : Node) (ctx : Ctx),
    (walkNode ctx t).2.1 = [] → noMarkers (walkNode ctx t).1 = true
  | .nilE, _, _ => rfl
  | .ident p n, ctx, h => by
    simp only [walkNode] at h ⊢
    by_cases hc : [':'].isPrefixOf n
    · simp [hc] at h
    · simp [noMarkers, hc]
  | .assign id pos lhs tok rhs, ctx, h => by
    simp only [walkNode, List.append_eq_nil, and_assoc] at h
    simp only [walkNode, noMarkers, Bool.and_eq_true]
    exact ⟨walkLhs_noMarkers lhs h.2.1, walkList_noMarkers rhs freshCtx h.2.2⟩
  | .labeled id lab child, ctx, h => by
    simp only [walkNode, List.append_eq_nil, and_assoc] at h
    simp only [walkNode, noMarkers, Bool.and_eq_true]
    exact ⟨walkNode_noMarkers lab _ h.1, walkNode_noMarkers child _ h.2⟩
  | .block id body, ctx, h => by
    simp only [walkNode] at h ⊢
    simp only [noMarkers]
    exact walkList_noMarkers body _ h
  | .caseClause id body, ctx, h => by
    simp only [walkNode] at h ⊢
    simp only [noMarkers]
    exact walkList_noMarkers body _ h
  | .commClause id comm body, ctx, h => by
    simp only [walkNode, List.append_eq_nil, and_assoc] at h
    simp only [walkNode, noMarkers, Bool.and_eq_true]
    exact ⟨walkNode_noMarkers comm _ h.1, walkList_noMarkers body _ h.2⟩
  | .rangeS id pos key value tok x body, ctx, h => by
    simp only [walkNode, List.append_eq_nil, and_assoc] at h
    simp only [walkNode, noMarkers, Bool.and_eq_true]
    exact ⟨⟨⟨fixLhsEntry_noMarkers key h.2.1, fixLhsEntry_noMarkers value h.2.2.1⟩,
      walkNode_noMarkers x _ h.2.2.2.1⟩, walkNode_noMarkers body _ h.2.2.2.2⟩

  | .initHeader id cs, ctx, h => by
    simp only [walkNode] at h ⊢
    simp only [noMarkers]
    exact walkList_noMarkers cs _ h
  | .declS id ns vs, ctx, h => by
    simp only [walkNode, List.append_eq_nil, and_assoc] at h
    simp only [walkNode, noMarkers, Bool.and_eq_true]
    exact ⟨walkList_noMarkers ns _ h.1, walkList_noMarkers vs _ h.2⟩
  | .other id cs, ctx, h => by
    simp only [walkNode] at h ⊢
    simp only [noMarkers]
    exact walkList_noMarkers cs _ h

theorem walkList_noMarkers : ∀ (l : List Node) (ctx : Ctx),
    (walkList ctx l).2.1 = [] → noMarkersL (walkList ctx l).1 = true
  | [], _, _ => rfl
  | n :: ns, ctx, h => by
    simp only [walkList, List.append_eq_nil, and_assoc] at h
    simp only [walkList, noMarkersL, Bool.and_eq_true]
    exact ⟨walkNode_noMarkers n _ h.1, walkList_noMarkers ns _ h.2⟩

theorem fixLhsEntry_noMarkers : ∀ (e : Node),
    (fixLhsEntry e (walkNode freshCtx e)).2.1 = [] →
    noMarkers (fixLhsEntry e (walkNode freshCtx e)).1 = true
  | .ident p n, h => by
    by_cases hc : [':'].isPrefixOf (if [':'].isPrefixOf n then n.drop 1 else n)
    · have he : (fixLhsEntry (Node.ident p n) (walkNode freshCtx (Node.ident p n))).2.1 =
          [⟨p, "unexpected colon-prefix"⟩] := by
        simp only [fixLhsEntry, if_pos hc]
      rw [he] at h
      exact absurd h (List.cons_ne_nil _ _)
    · simp only [fixLhsEntry, noMarkers]
      rw [Bool.not_eq_true] at hc
      rw [hc]
      rfl
  | .nilE, h => walkNode_noMarkers .nilE freshCtx h
  | .assign id pos lhs tok rhs, h =>
    walkNode_noMarkers (.assign id pos lhs tok rhs) freshCtx h
  | .labeled id lab child, h => walkNode_noMarkers (.labeled id lab child) freshCtx h
  | .block id body, h => walkNode_noMarkers (.block id body) freshCtx h
  | .caseClause id body, h => walkNode_noMarkers (.caseClause id body) freshCtx h
  | .commClause id comm body, h =>
    walkNode_noMarkers (.commClause id comm body) freshCtx h
  | .rangeS id pos key value tok x body, h =>
    walkNode_noMarkers (.rangeS id pos key value tok x body) freshCtx h
  | .initHeader id cs, h => walkNode_noMarkers (.initHeader id cs) freshCtx h
  | .declS id ns vs, h => walkNode_noMarkers (.declS id ns vs) freshCtx h
  | .other id cs, h => walkNode_noMarkers (.other id cs) freshCtx h

theorem walkLhs_noMarkers : ∀ (l : List Node),
    (walkLhs l).2.1 = [] → noMarkersL (walkLhs l).1 = true
  | [], _ => rfl
  | e :: es, h => by
    simp only [walkLhs, List.append_eq_nil, and_assoc] at h
    simp only [walkLhs, noMarkersL, Bool.and_eq_true]
    exact ⟨fixLhsEntry_noMarkers e h.1, walkLhs_noMarkers es h.2⟩
end

mutual
/-- Looking up an assignment in a marker-free tree yields marker-free
fields. -/
theorem findAssignData_noMarkers : ∀ (t : Node) (aid : Nat),
    noMarkers t = true → ∀ pos lhs tok rhs,
    findAssignData aid t = some (pos, lhs, tok, rhs) →
    noMarkersL lhs = true ∧ noMarkersL rhs = true
  | .nilE, _, _, _, _, _, _, hf => by simp [findAssignData] at hf
  | .ident p n, _, _, _, _, _, _, hf => by simp [findAssignData] at hf
  | .assign id apos alhs atok arhs, aid, hm, pos, lhs, tok, rhs, hf => by
    simp only [noMarkers, Bool.and_eq_true] at hm
    simp only [findAssignData] at hf
    by_cases hid : id = aid
    · rw [if_pos hid] at hf
      obtain ⟨rfl, rfl, rfl, rfl⟩ : apos = pos ∧ alhs = lhs ∧ atok = tok ∧ arhs = rhs := by
        have := Option.some.inj hf
        exact ⟨congrArg (·.1) this, congrArg (·.2.1) this,
          congrArg (·.2.2.1) this, congrArg (·.2.2.2) this⟩
      exact hm
    · rw [if_neg hid, Option.orElse_eq_some] at hf
      rcases hf with hf | ⟨_, hf⟩
      · exact findAssignDataL_noMarkers alhs aid hm.1 pos lhs tok rhs hf
      · exact findAssignDataL_noMarkers arhs aid hm.2 pos lhs tok rhs hf
  | .labeled id lab child, aid, hm, pos, lhs, tok, rhs, hf => by
    simp only [noMarkers, Bool.and_eq_true] at hm
    simp only [findAssignData, Option.orElse_eq_some] at hf
    rcases hf with hf | ⟨_, hf⟩
    · exact findAssignData_noMarkers lab aid hm.1 pos lhs tok rhs hf
    · exact findAssignData_noMarkers child aid hm.2 pos lhs tok rhs hf
  | .block id body, aid, hm, pos, lhs, tok, rhs, hf => by
    simp only [noMarkers] at hm
    simp only [findAssignData] at hf
    exact findAssignDataL_noMarkers body aid hm pos lhs tok rhs hf
  | .caseClause id body, aid, hm, pos, lhs, tok, rhs, hf => by
    simp only [noMarkers] at hm
    simp only [findAssignData] at hf
    exact findAssignDataL_noMarkers body aid hm pos lhs tok rhs hf
  | .commClause id comm body, aid, hm, pos, lhs, tok, rhs, hf => by
    simp only [noMarkers, Bool.and_eq_true] at hm
    simp only [findAssignData, Option.orElse_eq_some] at hf
    rcases hf with hf | ⟨_, hf⟩
    · exact findAssignData_noMarkers comm aid hm.1 pos lhs tok rhs hf
    · exact findAssignDataL_noMarkers body aid hm.2 pos lhs tok rhs hf
  | .rangeS id rpos key value rtok x body, aid, hm, pos, lhs, tok, rhs, hf => by
    simp only [noMarkers, Bool.and_eq_true, and_assoc] at hm
    simp only [findAssignData, Option.orElse_eq_some] at hf
    rcases hf with hf | ⟨_, hf | ⟨_, hf | ⟨_, hf⟩⟩⟩
    · exact findAssignData_noMarkers key aid hm.1 pos lhs tok rhs hf
    · exact findAssignData_noMarkers value aid hm.2.1 pos lhs tok rhs hf
    · exact findAssignData_noMarkers x aid hm.2.2.1 pos lhs tok rhs hf
    · exact findAssignData_noMarkers body aid hm.2.2.2 pos lhs tok rhs hf
  | .initHeader id cs, aid, hm, pos, lhs, tok, rhs, hf => by
    simp only [noMarkers] at hm
    simp only [findAssignData] at hf
    exact findAssignDataL_noMarkers cs aid hm pos lhs tok rhs hf
  | .declS id ns vs, aid, hm, pos, lhs, tok, rhs, hf => by
    simp only [noMarkers, Bool.and_eq_true] at hm
    simp only [findAssignData, Option.orElse_eq_some] at hf
    rcases hf with hf | ⟨_, hf⟩
    · exact findAssignDataL_noMarkers ns aid hm.1 pos lhs tok rhs hf
    · exact findAssignDataL_noMarkers vs aid hm.2 pos lhs tok rhs hf
  | .other id cs, aid, hm, pos, lhs, tok, rhs, hf => by
    simp only [noMarkers] at hm
    simp only [findAssignData] at hf
    exact findAssignDataL_noMarkers cs aid hm pos lhs tok rhs hf

theorem findAssignDataL_noMarkers : ∀ (l : List Node) (aid : Nat),
    noMarkersL l = true → ∀ pos lhs tok rhs,
    findAssignDataL aid l = some (pos, lhs, tok, rhs) →
    noMarkersL lhs = true ∧ noMarkersL rhs = true
  | [], _, _, _, _, _, _, hf => by simp [findAssignDataL] at hf
  | n :: ns, aid, hm, pos, lhs, tok, rhs, hf => by
    simp only [noMarkersL, Bool.and_eq_true] at hm
    simp only [findAssignDataL, Option.orElse_eq_some] at hf
    rcases hf with hf | ⟨_, hf⟩
    · exact findAssignData_noMarkers n aid hm.1 pos lhs tok rhs hf
    · exact findAssignDataL_noMarkers ns aid hm.2 pos lhs tok rhs hf
end

/-- The identifier assertion loop returns its input list. -/
theorem identsOf_eq_self : ∀ (l ids : List Node), identsOf l = some ids → ids = l
  | [], ids, h => by simpa [identsOf] using (Option.some.inj h).symm
  | e :: es, ids, h => by
    cases e with
    | ident p n =>
      simp only [identsOf, asIdent] at h
      cases hrec : identsOf es with
      | none => rw [hrec] at h; simp at h
      | some is =>
        rw [hrec] at h
        simp only at h
        rw [← Option.some.inj h, identsOf_eq_self es is hrec]
    | nilE => simp [identsOf, asIdent] at h
    | assign id pos l t r => simp [identsOf, asIdent] at h
    | labeled id lab c => simp [identsOf, asIdent] at h
    | block id b => simp [identsOf, asIdent] at h
    | caseClause id b => simp [identsOf, asIdent] at h
    | commClause id c b => simp [identsOf, asIdent] at h
    | rangeS id pos k v t x b => simp [identsOf, asIdent] at h
    | initHeader id c => simp [identsOf, asIdent] at h
    | declS id n v => simp [identsOf, asIdent] at h
    | other id c => simp [identsOf, asIdent] at h

/-- Generated temporary names never carry the declaration marker. -/
theorem temp_prefix_false (ds : List Char) :
    [':'].isPrefixOf (tempTag ++ ds) = false := rfl

/-- Generated temporary identifiers are marker-free. -/
theorem temp_not_marked (ds : List Char) :
    noMarkers (.ident 0 (tempTag ++ ds)) = true := rfl

/-- The mixed-rewrite loop preserves marker-freedom: temporaries are
unmarked and every kept expression and follow-up statement is built from
the marker-free input. -/
theorem mixedParts_noMarkers : ∀ (kind : List Kind) (lhs : List Node) (tc : Nat),
    noMarkersL lhs = true → ∀ l' aft tc',
    mixedParts kind lhs tc = some (l', aft, tc') →
    noMarkersL l' = true ∧ noMarkersL aft = true
  | kind, [], tc, _, l', aft, tc', h => by
    cases kind <;>
      · simp only [mixedParts] at h
        obtain ⟨h1, h2, h3⟩ : l' = [] ∧ aft = [] ∧ tc' = tc := by
          have := Option.some.inj h
          exact ⟨(congrArg (·.1) this).symm, (congrArg (·.2.1) this).symm,
            (congrArg (·.2.2) this).symm⟩
        subst h1; subst h2
        exact ⟨rfl, rfl⟩
  | [], e :: es, tc, _, l', aft, tc', h => by simp [mixedParts] at h
  | k :: ks, e :: es, tc, hm, l', aft, tc', h => by
    simp only [noMarkersL, Bool.and_eq_true] at hm
    by_cases hk : k = Kind.illegal
    · simp only [mixedParts, if_pos hk, Option.map_eq_some'] at h
      obtain ⟨⟨l2, a2, t2⟩, hrec, heq⟩ := h
      obtain ⟨h1, h2, h3⟩ : e :: l2 = l' ∧ a2 = aft ∧ t2 = tc' :=
        ⟨congrArg (·.1) heq, congrArg (·.2.1) heq, congrArg (·.2.2) heq⟩
      have hr := mixedParts_noMarkers ks es tc hm.2 l2 a2 t2 hrec
      subst h1; subst h2
      exact ⟨by simp [noMarkersL, hm.1, hr.1], hr.2⟩
    · simp only [mixedParts, if_neg hk, Option.bind_eq_some, Option.map_eq_some'] at h
      obtain ⟨stmt, hstmt, ⟨l2, a2, t2⟩, hrec, heq⟩ := h
      obtain ⟨h1, h2, h3⟩ :
          Node.ident 0 (tempTag ++ Nat.toDigits 10 tc) :: l2 = l' ∧
          stmt :: a2 = aft ∧ t2 = tc' :=
        ⟨congrArg (·.1) heq, congrArg (·.2.1) heq, congrArg (·.2.2) heq⟩
      have hr := mixedParts_noMarkers ks es (tc + 1) hm.2 l2 a2 t2 hrec
      have hstmtm : noMarkers stmt = true := by
        by_cases hv : k = Kind.var
        · rw [if_pos hv, Option.map_eq_some'] at hstmt
          obtain ⟨i, hi, rfl⟩ := hstmt
          have : i = e := by
            cases e <;> simp [asIdent] at hi <;> exact hi.symm
          subst this
          simp [makeDecl, noMarkers, noMarkersL, hm.1, temp_prefix_false]
        · rw [if_neg hv] at hstmt
          rw [← Option.some.inj hstmt]
          simp [noMarkers, noMarkersL, hm.1, temp_prefix_false]
      subst h1; subst h2
      refine ⟨by simp [noMarkersL, noMarkers, hr.1, temp_prefix_false], by simp [noMarkersL, hstmtm, hr.2]⟩

mutual
/-- Replacing an assignment by a marker-free node preserves
marker-freedom. -/
theorem replaceAssign_noMarkers : ∀ (t : Node) (aid : Nat) (a' : Node),
    noMarkers t = true → noMarkers a' = true →
    noMarkers (replaceAssign aid a' t) = true
  | .nilE, _, _, hm, _ => hm
  | .ident p n, _, _, hm, _ => hm
  | .assign id pos lhs tok rhs, aid, a', hm, ha => by
    simp only [noMarkers, Bool.and_eq_true] at hm
    by_cases hid : id = aid
    · simpa [replaceAssign, hid] using ha
    · simp only [replaceAssign, if_neg hid, noMarkers, Bool.and_eq_true]
      exact ⟨replaceAssignL_noMarkers lhs aid a' hm.1 ha,
        replaceAssignL_noMarkers rhs aid a' hm.2 ha⟩
  | .labeled id lab child, aid, a', hm, ha => by
    simp only [noMarkers, Bool.and_eq_true] at hm
    simp only [replaceAssign, noMarkers, Bool.and_eq_true]
    exact ⟨replaceAssign_noMarkers lab aid a' hm.1 ha,
      replaceAssign_noMarkers child aid a' hm.2 ha⟩
  | .block id body, aid, a', hm, ha => by
    simp only [noMarkers] at hm
    simp only [replaceAssign, noMarkers]
    exact replaceAssignL_noMarkers body aid a' hm ha
  | .caseClause id body, aid, a', hm, ha => by
    simp only [noMarkers] at hm
    simp only [replaceAssign, noMarkers]
    exact replaceAssignL_noMarkers body aid a' hm ha
  | .commClause id comm body, aid, a', hm, ha => by
    simp only [noMarkers, Bool.and_eq_true] at hm
    simp only [replaceAssign, noMarkers, Bool.and_eq_true]
    exact ⟨replaceAssign_noMarkers comm aid a' hm.1 ha,
      replaceAssignL_noMarkers body aid a' hm.2 ha⟩
  | .rangeS id pos key value tok x body, aid, a', hm, ha => by
    simp only [noMarkers, Bool.and_eq_true, and_assoc] at hm
    simp only [replaceAssign, noMarkers, Bool.and_eq_true, and_assoc]
    exact ⟨replaceAssign_noMarkers key aid a' hm.1 ha,
      replaceAssign_noMarkers value aid a' hm.2.1 ha,
      replaceAssign_noMarkers x aid a' hm.2.2.1 ha,
      replaceAssign_noMarkers body aid a' hm.2.2.2 ha⟩
  | .initHeader id cs, aid, a', hm, ha => by
    simp only [noMarkers] at hm
    simp only [replaceAssign, noMarkers]
    exact replaceAssignL_noMarkers cs aid a' hm ha
  | .declS id ns vs, aid, a', hm, ha => by
    simp only [noMarkers, Bool.and_eq_true] at hm
    simp only [replaceAssign, noMarkers, Bool.and_eq_true]
    exact ⟨replaceAssignL_noMarkers ns aid a' hm.1 ha,
      replaceAssignL_noMarkers vs aid a' hm.2 ha⟩
  | .other id cs, aid, a', hm, ha => by
    simp only [noMarkers] at hm
    simp only [replaceAssign, noMarkers]
    exact replaceAssignL_noMarkers cs aid a' hm ha

theorem replaceAssignL_noMarkers : ∀ (l : List Node) (aid : Nat) (a' : Node),
    noMarkersL l = true → noMarkers a' = true →
    noMarkersL (replaceAssignL aid a' l) = true
  | [], _, _, hm, _ => hm
  | n :: ns, aid, a', hm, ha => by
    simp only [noMarkersL, Bool.and_eq_true] at hm
    simp only [replaceAssignL, noMarkersL, Bool.and_eq_true]
    exact ⟨replaceAssign_noMarkers n aid a' hm.1 ha,
      replaceAssignL_noMarkers ns aid a' hm.2 ha⟩
end

mutual
/-- Overwriting a label's child slot with a marker-free statement
preserves marker-freedom. -/
theorem setLabelChild_noMarkers : ∀ (t : Node) (lid : Nat) (s' : Node),
    noMarkers t = true → noMarkers s' = true →
    noMarkers (setLabelChild lid s' t) = true
  | .nilE, _, _, hm, _ => hm
  | .ident p n, _, _, hm, _ => hm
  | .assign id pos lhs tok rhs, lid, s', hm, hs => by
    simp only [noMarkers, Bool.and_eq_true] at hm
    simp only [setLabelChild, noMarkers, Bool.and_eq_true]
    exact ⟨setLabelChildL_noMarkers lhs lid s' hm.1 hs,
      setLabelChildL_noMarkers rhs lid s' hm.2 hs⟩
  | .labeled id lab child, lid, s', hm, hs => by
    simp only [noMarkers, Bool.and_eq_true] at hm
    by_cases hid : id = lid
    · simp only [setLabelChild, if_pos hid, noMarkers, Bool.and_eq_true]
      exact ⟨hm.1, hs⟩
    · simp only [setLabelChild, if_neg hid, noMarkers, Bool.and_eq_true]
      exact ⟨setLabelChild_noMarkers lab lid s' hm.1 hs,
        setLabelChild_noMarkers child lid s' hm.2 hs⟩
  | .block id body, lid, s', hm, hs => by
    simp only [noMarkers] at hm
    simp only [setLabelChild, noMarkers]
    exact setLabelChildL_noMarkers body lid s' hm hs
  | .caseClause id body, lid, s', hm, hs => by
    simp only [noMarkers] at hm
    simp only [setLabelChild, noMarkers]
    exact setLabelChildL_noMarkers body lid s' hm hs
  | .commClause id comm body, lid, s', hm, hs => by
    simp only [noMarkers, Bool.and_eq_true] at hm
    simp only [setLabelChild, noMarkers, Bool.and_eq_true]
    exact ⟨setLabelChild_noMarkers comm lid s' hm.1 hs,
      setLabelChildL_noMarkers body lid s' hm.2 hs⟩
  | .rangeS id pos key value tok x body, lid, s', hm, hs => by
    simp only [noMarkers, Bool.and_eq_true, and_assoc] at hm
    simp only [setLabelChild, noMarkers, Bool.and_eq_true, and_assoc]
    exact ⟨setLabelChild_noMarkers key lid s' hm.1 hs,
      setLabelChild_noMarkers value lid s' hm.2.1 hs,
      setLabelChild_noMarkers x lid s' hm.2.2.1 hs,
      setLabelChild_noMarkers body lid s' hm.2.2.2 hs⟩
  | .initHeader id cs, lid, s', hm, hs => by
    simp only [noMarkers] at hm
    simp only [setLabelChild, noMarkers]
    exact setLabelChildL_noMarkers cs lid s' hm hs
  | .declS id ns vs, lid, s', hm, hs => by
    simp only [noMarkers, Bool.and_eq_true] at hm
    simp only [setLabelChild, noMarkers, Bool.and_eq_true]
    exact ⟨setLabelChildL_noMarkers ns lid s' hm.1 hs,
      setLabelChildL_noMarkers vs lid s' hm.2 hs⟩
  | .other id cs, lid, s', hm, hs => by
    simp only [noMarkers] at hm
    simp only [setLabelChild, noMarkers]
    exact setLabelChildL_noMarkers cs lid s' hm hs

theorem setLabelChildL_noMarkers : ∀ (l : List Node) (lid : Nat) (s' : Node),
    noMarkersL l = true → noMarkers s' = true →
    noMarkersL (setLabelChildL lid s' l) = true
  | [], _, _, hm, _ => hm
  | n :: ns, lid, s', hm, hs => by
    simp only [noMarkersL, Bool.and_eq_true] at hm
    simp only [setLabelChildL, noMarkersL, Bool.and_eq_true]
    exact ⟨setLabelChild_noMarkers n lid s' hm.1 hs,
      setLabelChildL_noMarkers ns lid s' hm.2 hs⟩
end

mutual
/-- Rewriting an owned statement list with a marker-freedom-preserving
function preserves marker-freedom of the whole tree. -/
theorem updateOwner_noMarkers : ∀ (t : Node) (oid : Nat)
    (f : List Node → Option (List Node)),
    (∀ l l', noMarkersL l = true → f l = some l' → noMarkersL l' = true) →
    ∀ t', noMarkers t = true → updateOwner oid f t = some t' →
    noMarkers t' = true
  | .nilE, _, _, _, _, _, h => by simp [updateOwner] at h
  | .ident p n, _, _, _, _, _, h => by simp [updateOwner] at h
  | .assign id pos lhs tok rhs, oid, f, hf, t', hm, h => by
    simp only [noMarkers, Bool.and_eq_true] at hm
    simp only [updateOwner] at h
    cases hrec : updateOwnerL oid f lhs with
    | some lhs' =>
      rw [hrec] at h
      simp only [Option.some.injEq] at h
      rw [← h]
      simp only [noMarkers, Bool.and_eq_true]
      exact ⟨updateOwnerL_noMarkers lhs oid f hf lhs' hm.1 hrec, hm.2⟩
    | none =>
      rw [hrec] at h
      simp only [Option.map_eq_some'] at h
      obtain ⟨rhs', hrhs, heq⟩ := h
      rw [← heq]
      simp only [noMarkers, Bool.and_eq_true]
      exact ⟨hm.1, updateOwnerL_noMarkers rhs oid f hf rhs' hm.2 hrhs⟩
  | .labeled id lab child, oid, f, hf, t', hm, h => by
    simp only [noMarkers, Bool.and_eq_true] at hm
    simp only [updateOwner] at h
    cases hrec : updateOwner oid f lab with
    | some lab' =>
      rw [hrec] at h
      simp only [Option.some.injEq] at h
      rw [← h]
      simp only [noMarkers, Bool.and_eq_true]
      exact ⟨updateOwner_noMarkers lab oid f hf lab' hm.1 hrec, hm.2⟩
    | none =>
      rw [hrec] at h
      simp only [Option.map_eq_some'] at h
      obtain ⟨child', hc, heq⟩ := h
      rw [← heq]
      simp only [noMarkers, Bool.and_eq_true]
      exact ⟨hm.1, updateOwner_noMarkers child oid f hf child' hm.2 hc⟩
  | .block id body, oid, f, hf, t', hm, h => by
    simp only [noMarkers] at hm
    simp only [updateOwner] at h
    by_cases hid : id = oid
    · rw [if_pos hid, Option.map_eq_some'] at h
      obtain ⟨body', hb, heq⟩ := h
      rw [← heq]
      simp only [noMarkers]
      exact hf body body' hm hb
    · rw [if_neg hid, Option.map_eq_some'] at h
      obtain ⟨body', hb, heq⟩ := h
      rw [← heq]
      simp only [noMarkers]
      exact updateOwnerL_noMarkers body oid f hf body' hm hb
  | .caseClause id body, oid, f, hf, t', hm, h => by
    simp only [noMarkers] at hm
    simp only [updateOwner] at h
    by_cases hid : id = oid
    · rw [if_pos hid, Option.map_eq_some'] at h
      obtain ⟨body', hb, heq⟩ := h
      rw [← heq]
      simp only [noMarkers]
      exact hf body body' hm hb
    · rw [if_neg hid, Option.map_eq_some'] at h
      obtain ⟨body', hb, heq⟩ := h
      rw [← heq]
      simp only [noMarkers]
      exact updateOwnerL_noMarkers body oid f hf body' hm hb
  | .commClause id comm body, oid, f, hf, t', hm, h => by
    simp only [noMarkers, Bool.and_eq_true] at hm
    simp only [updateOwner] at h
    by_cases hid : id = oid
    · rw [if_pos hid, Option.map_eq_some'] at h
      obtain ⟨body', hb, heq⟩ := h
      rw [← heq]
      simp only [noMarkers, Bool.and_eq_true]
      exact ⟨hm.1, hf body body' hm.2 hb⟩
    · rw [if_neg hid] at h
      cases hrec : updateOwner oid f comm with
      | some comm' =>
        rw [hrec] at h
        simp only [Option.some.injEq] at h
        rw [← h]
        simp only [noMarkers, Bool.and_eq_true]
        exact ⟨updateOwner_noMarkers comm oid f hf comm' hm.1 hrec, hm.2⟩
      | none =>
        rw [hrec] at h
        simp only [Option.map_eq_some'] at h
        obtain ⟨body', hb, heq⟩ := h
        rw [← heq]
        simp only [noMarkers, Bool.and_eq_true]
        exact ⟨hm.1, updateOwnerL_noMarkers body oid f hf body' hm.2 hb⟩
  | .rangeS id pos key value tok x body, oid, f, hf, t', hm, h => by
    simp only [noMarkers, Bool.and_eq_true, and_assoc] at hm
    simp only [updateOwner] at h
    cases h1 : updateOwner oid f key with
    | some key' =>
      rw [h1] at h
      simp only [Option.some.injEq] at h
      rw [← h]
      simp only [noMarkers, Bool.and_eq_true, and_assoc]
      exact ⟨updateOwner_noMarkers key oid f hf key' hm.1 h1, hm.2⟩
    | none =>
      rw [h1] at h
      cases h2 : updateOwner oid f value with
      | some value' =>
        rw [h2] at h
        simp only [Option.some.injEq] at h
        rw [← h]
        simp only [noMarkers, Bool.and_eq_true, and_assoc]
        exact ⟨hm.1, updateOwner_noMarkers value oid f hf value' hm.2.1 h2,
          hm.2.2⟩
      | none =>
        rw [h2] at h
        cases h3 : updateOwner oid f x with
        | some x' =>
          rw [h3] at h
          simp only [Option.some.injEq] at h
          rw [← h]
          simp only [noMarkers, Bool.and_eq_true, and_assoc]
          exact ⟨hm.1, hm.2.1, updateOwner_noMarkers x oid f hf x' hm.2.2.1 h3,
            hm.2.2.2⟩
        | none =>
          rw [h3] at h
          simp only [Option.map_eq_some'] at h
          obtain ⟨body', hb, heq⟩ := h
          rw [← heq]
          simp only [noMarkers, Bool.and_eq_true, and_assoc]
          exact ⟨hm.1, hm.2.1, hm.2.2.1,
            updateOwner_noMarkers body oid f hf body' hm.2.2.2 hb⟩
  | .initHeader id cs, oid, f, hf, t', hm, h => by
    simp only [noMarkers] at hm
    simp only [updateOwner, Option.map_eq_some'] at h
    obtain ⟨cs', hc, heq⟩ := h
    rw [← heq]
    simp only [noMarkers]
    exact updateOwnerL_noMarkers cs oid f hf cs' hm hc
  | .declS id ns vs, oid, f, hf, t', hm, h => by
    simp only [noMarkers, Bool.and_eq_true] at hm
    simp only [updateOwner] at h
    cases hrec : updateOwnerL oid f ns with
    | some ns' =>
      rw [hrec] at h
      simp only [Option.some.injEq] at h
      rw [← h]
      simp only [noMarkers, Bool.and_eq_true]
      exact ⟨updateOwnerL_noMarkers ns oid f hf ns' hm.1 hrec, hm.2⟩
    | none =>
      rw [hrec] at h
      simp only [Option.map_eq_some'] at h
      obtain ⟨vs', hv, heq⟩ := h
      rw [← heq]
      simp only [noMarkers, Bool.and_eq_true]
      exact ⟨hm.1, updateOwnerL_noMarkers vs oid f hf vs' hm.2 hv⟩
  | .other id cs, oid, f, hf, t', hm, h => by
    simp only [noMarkers] at hm
    simp only [updateOwner, Option.map_eq_some'] at h
    obtain ⟨cs', hc, heq⟩ := h
    rw [← heq]
    simp only [noMarkers]
    exact updateOwnerL_noMarkers cs oid f hf cs' hm hc

theorem updateOwnerL_noMarkers : ∀ (l : List Node) (oid : Nat)
    (f : List Node → Option (List Node)),
    (∀ l1 l2, noMarkersL l1 = true → f l1 = some l2 → noMarkersL l2 = true) →
    ∀ l', noMarkersL l = true → updateOwnerL oid f l = some l' →
    noMarkersL l' = true
  | [], _, _, _, _, _, h => by simp [updateOwnerL] at h
  | n :: ns, oid, f, hf, l', hm, h => by
    simp only [noMarkersL, Bool.and_eq_true] at hm
    simp only [updateOwnerL] at h
    cases hrec : updateOwner oid f n with
    | some n' =>
      rw [hrec] at h
      simp only [Option.some.injEq] at h
      rw [← h]
      simp only [noMarkersL, Bool.and_eq_true]
      exact ⟨updateOwner_noMarkers n oid f hf n' hm.1 hrec, hm.2⟩
    | none =>
      rw [hrec] at h
      simp only [Option.map_eq_some'] at h
      obtain ⟨ns', hn, heq⟩ := h
      rw [← heq]
      simp only [noMarkersL, Bool.and_eq_true]
      exact ⟨hm.1, updateOwnerL_noMarkers ns oid f hf ns' hm.2 hn⟩
end

theorem noMarkersL_set (l : List Node) (i : Nat) (d : Node)
    (hm : noMarkersL l = true) (hd : noMarkers d = true) :
    noMarkersL (l.set i d) = true := by
  induction l generalizing i with
  | nil => simpa using hm
  | cons a t ih =>
    simp only [noMarkersL, Bool.and_eq_true] at hm
    cases i with
    | zero => simp only [List.set_cons_zero, noMarkersL, Bool.and_eq_true]; exact ⟨hd, hm.2⟩
    | succ n =>
      simp only [List.set_cons_succ, noMarkersL, Bool.and_eq_true]
      exact ⟨hm.1, ih n hm.2⟩

theorem noMarkersL_append (l1 l2 : List Node) :
    noMarkersL (l1 ++ l2) = (noMarkersL l1 && noMarkersL l2) := by
  induction l1 with
  | nil => simp [noMarkersL]
  | cons a t ih => simp [noMarkersL, ih, Bool.and_assoc]

theorem noMarkersL_take (l : List Node) (n : Nat) (hm : noMarkersL l = true) :
    noMarkersL (l.take n) = true := by
  rw [noMarkersL_iff] at hm ⊢
  exact fun x hx => hm x (List.mem_of_mem_take hx)

theorem noMarkersL_drop (l : List Node) (n : Nat) (hm : noMarkersL l = true) :
    noMarkersL (l.drop n) = true := by
  rw [noMarkersL_iff] at hm ⊢
  exact fun x hx => hm x (List.mem_of_mem_drop hx)

/-- One change application preserves marker-freedom: the declaration a
non-mixed change substitutes reuses the construct's own identifiers and
expressions, and a mixed change only introduces unmarked temporaries. -/
theorem applyChange_noMarkers (tc : Nat) (t : Node) (c : Change) (t' : Node)
    (tc' : Nat) (hm : noMarkers t = true)
    (h : applyChange tc t c = some (t', tc')) : noMarkers t' = true := by
  unfold applyChange at h
  cases hk : c.kind with
  | none =>
    rw [hk] at h
    simp only [Option.map_eq_some'] at h
    obtain ⟨t1, h1, heq⟩ := h
    have ht1 : t1 = t' := congrArg (·.1) heq
    subst ht1
    unfold applyNonMixed at h1
    cases hfind : findAssignData c.assignId t with
    | none => rw [hfind] at h1; simp at h1
    | some ad =>
      obtain ⟨pos, lhs, tok, rhs⟩ := ad
      rw [hfind] at h1
      simp only at h1
      cases hids : identsOf lhs with
      | none => rw [hids] at h1; simp at h1
      | some ids =>
        rw [hids] at h1
        simp only at h1
        have hids_eq := identsOf_eq_self lhs ids hids
        rw [hids_eq] at h1
        have hfm := findAssignData_noMarkers t c.assignId hm pos lhs tok rhs hfind
        have hdecl : noMarkers (makeDecl lhs rhs) = true := by
          simp only [makeDecl, noMarkers, Bool.and_eq_true]
          exact hfm
        cases hp : c.ptr with
        | some lid =>
          rw [hp] at h1
          simp only [Option.some.injEq] at h1
          rw [← h1]
          exact setLabelChild_noMarkers t lid _ hm hdecl
        | none =>
          rw [hp] at h1
          simp only at h1
          cases ho : c.listOwner with
          | none => rw [ho] at h1; simp at h1
          | some oid =>
            rw [ho] at h1
            simp only at h1
            refine updateOwner_noMarkers t oid _ ?_ _ hm h1
            intro l l' hml hfl
            unfold setStmtAt at hfl
            cases hil : indexStmt l c.assignId with
            | none => rw [hil] at hfl; simp at hfl
            | some i =>
              rw [hil] at hfl
              simp only [Option.some.injEq] at hfl
              rw [← hfl]
              exact noMarkersL_set l i _ hml hdecl
  | some k =>
    rw [hk] at h
    unfold applyMixed at h
    cases hfind : findAssignData c.assignId t with
    | none => rw [hfind] at h; simp at h
    | some ad =>
      obtain ⟨pos, lhs, tok, rhs⟩ := ad
      rw [hfind] at h
      simp only at h
      cases hparts : mixedParts k lhs tc with
      | none => rw [hparts] at h; simp at h
      | some parts =>
        obtain ⟨l2, aft, tc2⟩ := parts
        rw [hparts] at h
        simp only at h
        have hfm := findAssignData_noMarkers t c.assignId hm pos lhs tok rhs hfind
        have hpm := mixedParts_noMarkers k lhs tc hfm.1 l2 aft tc2 hparts
        have ha' : noMarkers (Node.assign c.assignId pos l2 .define rhs) = true := by
          simp only [noMarkers, Bool.and_eq_true]
          exact ⟨hpm.1, hfm.2⟩
        have hrepl := replaceAssign_noMarkers t c.assignId _ hm ha'
        cases ho : c.listOwner with
        | none => rw [ho] at h; simp at h
        | some oid =>
          cases hr : c.ref with
          | none => rw [ho, hr] at h; simp at h
          | some r =>
            rw [ho, hr] at h
            simp only at h
            cases hupd : updateOwner oid (insertStmtsAfter r aft)
              (replaceAssign c.assignId
                (Node.assign c.assignId pos l2 .define rhs) t) with
            | none => rw [hupd] at h; simp at h
            | some t2 =>
              rw [hupd] at h
              simp only [Option.some.injEq] at h
              have ht2 : t2 = t' := congrArg (·.1) h
              subst ht2
              refine updateOwner_noMarkers _ oid _ ?_ _ hrepl hupd
              intro l l' hml hfl
              unfold insertStmtsAfter at hfl
              cases hil : indexStmt l r with
              | none => rw [hil] at hfl; simp at hfl
              | some i =>
                rw [hil] at hfl
                simp only [Option.some.injEq] at hfl
                rw [← hfl]
                simp only [noMarkersL_append, Bool.and_eq_true]
                exact ⟨⟨noMarkersL_take l (i + 1) hml, hpm.2⟩,
                  noMarkersL_drop l (i + 1) hml⟩

/-- The whole application pass preserves marker-freedom. -/
theorem applyAll_noMarkers : ∀ (cs : List Change) (t : Node) (tc : Nat)
    (t' : Node) (tc' : Nat), noMarkers t = true →
    applyAll cs t tc = some (t', tc') → noMarkers t' = true
  | [], t, tc, t', tc', hm, h => by
    have h2 : t = t' ∧ tc = tc' := by simpa [applyAll, Prod.ext_iff] using h
    exact h2.1 ▸ hm
  | c :: rest, t, tc, t', tc', hm, h => by
    simp only [applyAll] at h
    cases hrec : applyChange tc t c with
    | none => rw [hrec] at h; simp at h
    | some r =>
      obtain ⟨t1, tc1⟩ := r
      rw [hrec] at h
      exact applyAll_noMarkers rest t1 tc1 t' tc'
        (applyChange_noMarkers tc t c t1 tc1 hm hrec) h

/-- C7 (amended): for every unit that translates successfully, the
translated tree contains zero declaration markers, and running the
tree-level translator again on it makes no further changes.  (The full
second run is settled separately: its token pre-pass rejects any output
that contains the declare-and-assign operator.) -/
theorem translator_tree_idempotent (t t' : Node)
    (h : xlateFile t = some (.ok t')) :
    noMarkers t' = true ∧ xlateFile t' = some (.ok t') := by
  unfold xlateFile at h
  by_cases he : (walkNode freshCtx t).2.1.isEmpty = true
  · rw [if_pos he] at h
    have hnil : (walkNode freshCtx t).2.1 = [] := List.isEmpty_iff.mp he
    have hw := walkNode_noMarkers t freshCtx hnil
    cases ha : applyAll (walkNode freshCtx t).2.2 (walkNode freshCtx t).1 0 with
    | none => rw [ha] at h; simp at h
    | some r =>
      obtain ⟨x, tcf⟩ := r
      rw [ha] at h
      simp only [Option.some.injEq, Except.ok.injEq] at h
      have hx : x = t' := h
      subst hx
      have hm := applyAll_noMarkers (walkNode freshCtx t).2.2
        (walkNode freshCtx t).1 0 x tcf hw ha
      exact ⟨hm, xlateFile_id_of_noMarkers x hm⟩
  · rw [if_neg he] at h
    simp at h

mutual
/-- Modelled from the spec (§6 External Interfaces): whether the
printed form of the tree contains the declare-and-assign operator.  The
external Printer renders an assignment or range statement whose
operator field is `token.DEFINE` with the `:=` operator, which the
external Tokenizer scans back as the declare-and-assign token; nothing
else prints as `:=`. -/
def containsDefine : Node → Bool
  | .nilE => false
  | .ident _ _ => false
  | .assign _ _ lhs tok rhs =>
    tok == .define || containsDefineL lhs || containsDefineL rhs
  | .labeled _ lab child => containsDefine lab || containsDefine child
  | .block _ body => containsDefineL body
  | .caseClause _ body => containsDefineL body
  | .commClause _ comm body => containsDefine comm || containsDefineL body
  | .rangeS _ _ key value tok x body =>
    tok == .define || containsDefine key || containsDefine value ||
      containsDefine x || containsDefine body
  | .initHeader _ cs => containsDefineL cs
  | .declS _ ns vs => containsDefineL ns || containsDefineL vs
  | .other _ cs => containsDefineL cs

def containsDefineL : List Node → Bool
  | [] => false
  | n :: ns => containsDefine n || containsDefineL ns
end

/-- The concrete input block `{ :n, err = f() }`. -/
def mixedExampleInput : Node :=
  .other 1 [.block 2 [.assign 3 10
    [.ident 11 ":n".data, .ident 13 "err".data] .assign [.other 4 []]]]

/-- Modelled from the spec (§6 External Interfaces): the token stream
the external Tokenizer produces from the first printed statement of the
translated `mixedExampleInput`, namely
`GOOEY_TEMP_0, GOOEY_TEMP_1 := f()` — the Printer renders the
`token.DEFINE` operator of the rewritten assignment as `:=` at offset
27. -/
def mixedExampleRescanToks : List ScanTok :=
  [⟨0, .identT, "GOOEY_TEMP_0".data⟩, ⟨12, .comma, ",".data⟩,
   ⟨14, .identT, "GOOEY_TEMP_1".data⟩, ⟨27, .defineT, ":=".data⟩,
   ⟨30, .identT, "f".data⟩, ⟨31, .otherT, "(".data⟩, ⟨32, .otherT, ")".data⟩]

/-- The translation of `mixedExampleInput`. -/
def mixedExampleOutput : Node :=
  .other 1 [.block 2 [
    .assign 3 10 [.ident 0 "GOOEY_TEMP_0".data, .ident 0 "GOOEY_TEMP_1".data]
      .define [.other 4 []],
    .declS 0 [.ident 11 "n".data] [.ident 0 "GOOEY_TEMP_0".data],
    .assign 0 0 [.ident 13 "err".data] .assign
      [.ident 0 "GOOEY_TEMP_1".data]]]

/-- C7 counterexample: the translator is not idempotent as a whole.
Translating `{ :n, err = f() }` succeeds, but the output contains the
declare-and-assign operator, and the second run's token pre-pass rejects
the printed output with the evil-token error — it does not succeed. -/
theorem translator_rerun_rejects_mixed_output :
    xlateFile mixedExampleInput = some (.ok mixedExampleOutput) ∧
    containsDefine mixedExampleOutput = true ∧
    parseFilePre "GOOEY_TEMP_0, GOOEY_TEMP_1 := f()".data mixedExampleRescanToks =
      .error [⟨27, evilMsg⟩] :=
  ⟨rfl, rfl, rfl⟩

/-- Witness for the amended C7 at the concrete mixed example: the
translated tree is marker-free and the tree-level translator run on it
is the identity. -/
theorem translator_tree_idempotent_witness :
    noMarkers mixedExampleOutput = true ∧
    xlateFile mixedExampleOutput = some (.ok mixedExampleOutput) :=
  translator_tree_idempotent mixedExampleInput mixedExampleOutput rfl

mutual
/-- The ids of all statement-like nodes in a tree, preorder. -/
def nodeIds : Node → List Nat
  | .nilE => []
  | .ident _ _ => []
  | .assign id _ lhs _ rhs => id :: (nodeIdsL lhs ++ nodeIdsL rhs)
  | .labeled id lab child => id :: (nodeIds lab ++ nodeIds child)
  | .block id body => id :: nodeIdsL body
  | .caseClause id body => id :: nodeIdsL body
  | .commClause id comm body => id :: (nodeIds comm ++ nodeIdsL body)
  | .rangeS id _ key value _ x body =>
    id :: (nodeIds key ++ nodeIds value ++ nodeIds x ++ nodeIds body)
  | .initHeader id cs => id :: nodeIdsL cs
  | .declS id ns vs => id :: (nodeIdsL ns ++ nodeIdsL vs)
  | .other id cs => id :: nodeIdsL cs

def nodeIdsL : List Node → List Nat
  | [] => []
  | n :: ns => nodeIds n ++ nodeIdsL ns
end

/-- The identities of the entries of a statement list. -/
def topIds (l : List Node) : List Nat := l.filterMap nodeId

/-- The reference ids of the changes targeting the list owned by `o`,
in recording order. -/
def refsFor (cs : List Change) (o : Nat) : List Nat :=
  (cs.filter (fun c => c.listOwner == some o)).filterMap (fun c => c.ref)

/-- One mutation of a targeted statement list, as performed by the
change-application engine: `applyNonMixed` replaces the entry whose
identity is the assignment's (`setStmtAt`), `applyMixed` splices the
follow-up statements right after the reference entry
(`insertStmtsAfter`).  The payload is the generated statement(s). -/
inductive ListOp where
  | setOp (aid : Nat) (decl : Node)
  | insertOp (r : Nat) (after : List Node)

/-- The reference identity an operation looks up with `indexStmt`. -/
def ListOp.ref : ListOp → Nat
  | .setOp aid _ => aid
  | .insertOp r _ => r

/-- Running a sequence of list mutations in recording order; `none`
models the `indexStmt` panic. -/
def runListOps : List ListOp → List Node → Option (List Node)
  | [], l => some l
  | .setOp aid d :: rest, l =>
    match setStmtAt aid d l with
    | none => none
    | some l' => runListOps rest l'
  | .insertOp r a :: rest, l =>
    match insertStmtsAfter r a l with
    | none => none
    | some l' => runListOps rest l'

/-- A reference present among the entry identities is found by
`indexStmt`, at a position holding an entry with that identity. -/
theorem indexStmt_found (l : List Node) (r : Nat) (h : r ∈ topIds l) :
    ∃ i, indexStmt l r = some i ∧ ∃ e, l[i]? = some e ∧ nodeId e = some r := by
  induction l with
  | nil => simp [topIds] at h
  | cons a t ih =>
    by_cases ha : nodeId a = some r
    · exact ⟨0, by simp [indexStmt, ha], a, by simp, ha⟩
    · have h' : r ∈ topIds t := by
        simp only [topIds, List.filterMap_cons] at h
        cases hna : nodeId a with
        | none => rw [hna] at h; exact h
        | some v =>
          rw [hna] at h
          rcases List.mem_cons.mp h with rfl | h
          · exact absurd hna ha
          · exact h
      obtain ⟨i, hi, e, he, hne⟩ := ih h'
      exact ⟨i + 1, by simp [indexStmt, ha, hi], e, by simpa using he, hne⟩

/-- Presence of every pending reference is preserved by one `setOp`:
the replaced entry is the operation's own reference, which is distinct
from every later one. -/
theorem topIds_set_preserved (l : List Node) (i : Nat) (d e : Node) (r aid : Nat)
    (hij : r ≠ aid)
    (hidx : indexStmt l aid = some i)
    (hmem : l[i]? = some e) (hei : nodeId e = some aid)
    (hr : r ∈ topIds l) : r ∈ topIds (l.set i d) := by
  simp only [topIds, List.mem_filterMap] at hr ⊢
  obtain ⟨x, hx, hxr⟩ := hr
  obtain ⟨j, hj⟩ := List.getElem?_of_mem hx
  by_cases hji : j = i
  · subst hji
    rw [hj] at hmem
    have : x = e := Option.some.inj hmem
    subst this
    rw [hxr] at hei
    exact absurd (Option.some.inj hei) hij
  · refine ⟨x, ?_, hxr⟩
    have hset : (l.set i d)[j]? = some x := by
      rw [List.getElem?_set_ne (fun hh => hji hh.symm)]
      exact hj
    exact List.getElem?_mem hset

/-- Presence of every reference is preserved by one `insertOp`: the
splice keeps every original entry. -/
theorem topIds_insert_preserved (l : List Node) (i : Nat) (a : List Node) (r : Nat)
    (hr : r ∈ topIds l) :
    r ∈ topIds (l.take (i + 1) ++ a ++ l.drop (i + 1)) := by
  simp only [topIds, List.mem_filterMap] at hr ⊢
  obtain ⟨x, hx, hxr⟩ := hr
  refine ⟨x, ?_, hxr⟩
  have hx' : x ∈ l.take (i + 1) ++ l.drop (i + 1) := by
    rw [List.take_append_drop]
    exact hx
  rcases List.mem_append.mp hx' with h | h
  · exact List.mem_append.mpr (Or.inl (List.mem_append.mpr (Or.inl h)))
  · exact List.mem_append.mpr (Or.inr h)

/-- C10, application side: a sequence of list mutations whose reference
identities are pairwise distinct and all present among the list's entry
identities runs to completion — `indexStmt` finds every reference, and
the panic branch is never taken. -/
theorem runListOps_total : ∀ (ops : List ListOp) (l : List Node),
    (ops.map ListOp.ref).Nodup →
    (∀ op ∈ ops, op.ref ∈ topIds l) →
    (runListOps ops l).isSome
  | [], l, _, _ => by simp [runListOps]
  | .setOp aid d :: rest, l, hnd, hmem => by
    obtain ⟨i, hi, e, he, hei⟩ :=
      indexStmt_found l aid (hmem _ (List.mem_cons_self _ _))
    simp only [runListOps, setStmtAt, hi]
    simp only [List.map_cons, List.nodup_cons] at hnd
    refine runListOps_total rest (l.set i d) hnd.2 ?_
    intro op hop
    refine topIds_set_preserved l i d e op.ref aid ?_ hi he hei
      (hmem op (List.mem_cons_of_mem _ hop))
    intro hh
    refine hnd.1 ?_
    show aid ∈ rest.map ListOp.ref
    rw [← hh]
    exact List.mem_map_of_mem ListOp.ref hop
  | .insertOp r a :: rest, l, hnd, hmem => by
    obtain ⟨i, hi, e, he, hei⟩ :=
      indexStmt_found l r (hmem _ (List.mem_cons_self _ _))
    simp only [runListOps, insertStmtsAfter, hi]
    simp only [List.map_cons, List.nodup_cons] at hnd
    refine runListOps_total rest _ hnd.2 ?_
    intro op hop
    exact topIds_insert_preserved l i a op.ref (hmem op (List.mem_cons_of_mem _ hop))

mutual
/-- The walk never changes a node's identity. -/
theorem walk_topId : ∀ (n : Node) (ctx : Ctx),
    nodeId (walkNode ctx n).1 = nodeId n
  | .nilE, _ => rfl
  | .ident p n, ctx => by simp [walkNode, nodeId]
  | .assign id pos lhs tok rhs, ctx => by simp [walkNode, nodeId]
  | .labeled id lab child, ctx => by simp [walkNode, nodeId]
  | .block id body, ctx => by simp [walkNode, nodeId]
  | .caseClause id body, ctx => by simp [walkNode, nodeId]
  | .commClause id comm body, ctx => by simp [walkNode, nodeId]
  | .rangeS id pos key value tok x body, ctx => by simp [walkNode, nodeId]
  | .initHeader id cs, ctx => by simp [walkNode, nodeId]
  | .declS id ns vs, ctx => by simp [walkNode, nodeId]
  | .other id cs, ctx => by simp [walkNode, nodeId]
end

/-- The walk never changes the identities of a statement list. -/
theorem topIds_walkList (l : List Node) (ctx : Ctx) :
    topIds (walkList ctx l).1 = topIds l := by
  induction l with
  | nil => rfl
  | cons n ns ih =>
    simp only [walkList, topIds, List.filterMap_cons, walk_topId n ctx]
    cases nodeId n with
    | none => simpa [topIds] using ih
    | some v => simpa [topIds] using congrArg (v :: ·) ih

mutual
/-- The walk preserves the multiset of node identities. -/
theorem walk_ids : ∀ (n : Node) (ctx : Ctx),
    nodeIds (walkNode ctx n).1 = nodeIds n
  | .nilE, _ => rfl
  | .ident p n, ctx => by simp [walkNode, nodeIds]
  | .assign id pos lhs tok rhs, ctx => by
    simp [walkNode, nodeIds, walkLhs_ids lhs, walkList_ids rhs freshCtx]
  | .labeled id lab child, ctx => by
    simp [walkNode, nodeIds, walk_ids lab _, walk_ids child _]
  | .block id body, ctx => by simp [walkNode, nodeIds, walkList_ids body _]
  | .caseClause id body, ctx => by simp [walkNode, nodeIds, walkList_ids body _]
  | .commClause id comm body, ctx => by
    simp [walkNode, nodeIds, walk_ids comm _, walkList_ids body _]
  | .rangeS id pos key value tok x body, ctx => by
    simp [walkNode, nodeIds, fixLhs_ids key, fixLhs_ids value,
      walk_ids x freshCtx, walk_ids body freshCtx]
  | .initHeader id cs, ctx => by simp [walkNode, nodeIds, walkList_ids cs _]
  | .declS id ns vs, ctx => by
    simp [walkNode, nodeIds, walkList_ids ns _, walkList_ids vs _]
  | .other id cs, ctx => by simp [walkNode, nodeIds, walkList_ids cs _]

theorem walkList_ids : ∀ (l : List Node) (ctx : Ctx),
    nodeIdsL (walkList ctx l).1 = nodeIdsL l
  | [], _ => rfl
  | n :: ns, ctx => by
    simp [walkList, nodeIdsL, walk_ids n _, walkList_ids ns _]

theorem fixLhs_ids : ∀ (e : Node),
    nodeIds (fixLhsEntry e (walkNode freshCtx e)).1 = nodeIds e
  | .ident p n => by simp [fixLhsEntry, nodeIds]
  | .nilE => walk_ids .nilE freshCtx
  | .assign id pos lhs tok rhs => walk_ids (.assign id pos lhs tok rhs) freshCtx
  | .labeled id lab child => walk_ids (.labeled id lab child) freshCtx
  | .block id body => walk_ids (.block id body) freshCtx
  | .caseClause id body => walk_ids (.caseClause id body) freshCtx
  | .commClause id comm body => walk_ids (.commClause id comm body) freshCtx
  | .rangeS id pos key value tok x body =>
    walk_ids (.rangeS id pos key value tok x body) freshCtx
  | .initHeader id cs => walk_ids (.initHeader id cs) freshCtx
  | .declS id ns vs => walk_ids (.declS id ns vs) freshCtx
  | .other id cs => walk_ids (.other id cs) freshCtx

theorem walkLhs_ids : ∀ (l : List Node),
    nodeIdsL (walkLhs l).1 = nodeIdsL l
  | [] => rfl
  | e :: es => by
    simp [walkLhs, nodeIdsL, fixLhs_ids e, walkLhs_ids es]
end

mutual
/-- The body of the first node with identity `o` that owns a statement
list (a block, case clause or comm clause), in traversal order. -/
def ownerBodyIn (o : Nat) : Node → Option (List Node)
  | .nilE => none
  | .ident _ _ => none
  | .assign _ _ lhs _ rhs => ownerBodyInL o lhs <|> ownerBodyInL o rhs
  | .labeled _ lab child => ownerBodyIn o lab <|> ownerBodyIn o child
  | .block id body => if id = o then some body else ownerBodyInL o body
  | .caseClause id body => if id = o then some body else ownerBodyInL o body
  | .commClause id comm body =>
    if id = o then some body else ownerBodyIn o comm <|> ownerBodyInL o body
  | .rangeS _ _ key value _ x body =>
    ownerBodyIn o key <|> ownerBodyIn o value <|> ownerBodyIn o x <|> ownerBodyIn o body
  | .initHeader _ cs => ownerBodyInL o cs
  | .declS _ ns vs => ownerBodyInL o ns <|> ownerBodyInL o vs
  | .other _ cs => ownerBodyInL o cs

def ownerBodyInL (o : Nat) : List Node → Option (List Node)
  | [] => none
  | n :: ns => ownerBodyIn o n <|> ownerBodyInL o ns
end

/-- Whether the node is a labeled statement. -/
def isLabeledB : Node → Bool
  | .labeled _ _ _ => true
  | _ => false

mutual
/-- Parser-guaranteed shape facts the transformer relies on: the label
of a labeled statement is an identifier, and the `Comm` statement of a
comm clause is never a labeled statement. -/
def wfShape : Node → Bool
  | .nilE => true
  | .ident _ _ => true
  | .assign _ _ lhs _ rhs => wfShapeL lhs && wfShapeL rhs
  | .labeled _ lab child =>
    (match lab with | .ident _ _ => true | _ => false) && wfShape child
  | .block _ body => wfShapeL body
  | .caseClause _ body => wfShapeL body
  | .commClause _ comm body => !isLabeledB comm && wfShape comm && wfShapeL body
  | .rangeS _ _ key value _ x body =>
    wfShape key && wfShape value && wfShape x && wfShape body
  | .initHeader _ cs => wfShapeL cs
  | .declS _ ns vs => wfShapeL ns && wfShapeL vs
  | .other _ cs => wfShapeL cs

def wfShapeL : List Node → Bool
  | [] => true
  | n :: ns => wfShape n && wfShapeL ns
end

mutual
/-- A tree without the identity owns no statement list under it. -/
theorem ownerBodyIn_none : ∀ (t : Node) (o : Nat), o ∉ nodeIds t →
    ownerBodyIn o t = none
  | .nilE, _, _ => rfl
  | .ident _ _, _, _ => rfl
  | .assign id pos lhs tok rhs, o, h => by
    simp only [nodeIds, List.mem_cons, List.mem_append, not_or] at h
    simp [ownerBodyIn, ownerBodyInL_none lhs o h.2.1, ownerBodyInL_none rhs o h.2.2]
  | .labeled id lab child, o, h => by
    simp only [nodeIds, List.mem_cons, List.mem_append, not_or] at h
    simp [ownerBodyIn, ownerBodyIn_none lab o h.2.1, ownerBodyIn_none child o h.2.2]
  | .block id body, o, h => by
    simp only [nodeIds, List.mem_cons, not_or] at h
    simp [ownerBodyIn, Ne.symm h.1, ownerBodyInL_none body o h.2]
  | .caseClause id body, o, h => by
    simp only [nodeIds, List.mem_cons, not_or] at h
    simp [ownerBodyIn, Ne.symm h.1, ownerBodyInL_none body o h.2]
  | .commClause id comm body, o, h => by
    simp only [nodeIds, List.mem_cons, List.mem_append, not_or] at h
    simp [ownerBodyIn, Ne.symm h.1, ownerBodyIn_none comm o h.2.1,
      ownerBodyInL_none body o h.2.2]
  | .rangeS id pos key value tok x body, o, h => by
    simp only [nodeIds, List.mem_cons, List.mem_append, not_or] at h
    simp [ownerBodyIn, ownerBodyIn_none key o h.2.1.1.1,
      ownerBodyIn_none value o h.2.1.1.2, ownerBodyIn_none x o h.2.1.2,
      ownerBodyIn_none body o h.2.2]
  | .initHeader id cs, o, h => by
    simp only [nodeIds, List.mem_cons, not_or] at h
    simp [ownerBodyIn, ownerBodyInL_none cs o h.2]
  | .declS id ns vs, o, h => by
    simp only [nodeIds, List.mem_cons, List.mem_append, not_or] at h
    simp [ownerBodyIn, ownerBodyInL_none ns o h.2.1, ownerBodyInL_none vs o h.2.2]
  | .other id cs, o, h => by
    simp only [nodeIds, List.mem_cons, not_or] at h
    simp [ownerBodyIn, ownerBodyInL_none cs o h.2]

theorem ownerBodyInL_none : ∀ (l : List Node) (o : Nat), o ∉ nodeIdsL l →
    ownerBodyInL o l = none
  | [], _, _ => rfl
  | n :: ns, o, h => by
    simp only [nodeIdsL, List.mem_append, not_or] at h
    simp [ownerBodyInL, ownerBodyIn_none n o h.1, ownerBodyInL_none ns o h.2]
end

/-- Entry identities are among all identities. -/
theorem topIds_sublist (l : List Node) : (topIds l).Sublist (nodeIdsL l) := by
  induction l with
  | nil => exact List.Sublist.refl _
  | cons n ns ih =>
    have hn : (nodeId n).toList.Sublist (nodeIds n) := by
      cases n <;> simp [nodeId, nodeIds, List.Sublist.refl]
    have heq : topIds (n :: ns) = (nodeId n).toList ++ topIds ns := by
      cases hid : nodeId n <;> simp [topIds, List.filterMap_cons, hid]
    rw [heq]
    show ((nodeId n).toList ++ topIds ns).Sublist (nodeIds n ++ nodeIdsL ns)
    exact List.Sublist.append hn ih

mutual
/-- The identities inside an owned body are among the tree's. -/
theorem ownerBody_ids : ∀ (t : Node) (o : Nat) (B : List Node),
    ownerBodyIn o t = some B → (nodeIdsL B).Sublist (nodeIds t)
  | .nilE, _, _, h => by simp [ownerBodyIn] at h
  | .ident _ _, _, _, h => by simp [ownerBodyIn] at h
  | .assign id pos lhs tok rhs, o, B, h => by
    simp only [ownerBodyIn, Option.orElse_eq_some] at h
    refine List.Sublist.trans ?_ (List.sublist_cons_self _ _)
    rcases h with h | ⟨_, h⟩
    · exact (ownerBodyL_ids lhs o B h).trans (List.sublist_append_left _ _)
    · exact (ownerBodyL_ids rhs o B h).trans (List.sublist_append_right _ _)
  | .labeled id lab child, o, B, h => by
    simp only [ownerBodyIn, Option.orElse_eq_some] at h
    refine List.Sublist.trans ?_ (List.sublist_cons_self _ _)
    rcases h with h | ⟨_, h⟩
    · exact (ownerBody_ids lab o B h).trans (List.sublist_append_left _ _)
    · exact (ownerBody_ids child o B h).trans (List.sublist_append_right _ _)
  | .block id body, o, B, h => by
    simp only [ownerBodyIn] at h
    by_cases hid : id = o
    · rw [if_pos hid] at h
      rw [← Option.some.inj h]
      exact List.sublist_cons_self _ _
    · rw [if_neg hid] at h
      exact (ownerBodyL_ids body o B h).trans (List.sublist_cons_self _ _)
  | .caseClause id body, o, B, h => by
    simp only [ownerBodyIn] at h
    by_cases hid : id = o
    · rw [if_pos hid] at h
      rw [← Option.some.inj h]
      exact List.sublist_cons_self _ _
    · rw [if_neg hid] at h
      exact (ownerBodyL_ids body o B h).trans (List.sublist_cons_self _ _)
  | .commClause id comm body, o, B, h => by
    simp only [ownerBodyIn] at h
    by_cases hid : id = o
    · rw [if_pos hid] at h
      rw [← Option.some.inj h]
      refine List.Sublist.trans ?_ (List.sublist_cons_self _ _)
      exact List.sublist_append_right _ _
    · rw [if_neg hid, Option.orElse_eq_some] at h
      refine List.Sublist.trans ?_ (List.sublist_cons_self _ _)
      rcases h with h | ⟨_, h⟩
      · exact (ownerBody_ids comm o B h).trans (List.sublist_append_left _ _)
      · exact (ownerBodyL_ids body o B h).trans (List.sublist_append_right _ _)
  | .rangeS id pos key value tok x body, o, B, h => by
    simp only [ownerBodyIn, Option.orElse_eq_some] at h
    refine List.Sublist.trans ?_ (List.sublist_cons_self _ _)
    rcases h with h | ⟨_, h | ⟨_, h | ⟨_, h⟩⟩⟩
    · exact (ownerBody_ids key o B h).trans
        ((List.sublist_append_left _ _).trans ((List.sublist_append_left _ _).trans
          (List.sublist_append_left _ _)))
    · exact (ownerBody_ids value o B h).trans
        (((List.sublist_append_right _ _).trans ((List.sublist_append_left _ _).trans
          (List.sublist_append_left _ _))))
    · exact (ownerBody_ids x o B h).trans
        ((List.sublist_append_right _ _).trans (List.sublist_append_left _ _))
    · exact (ownerBody_ids body o B h).trans (List.sublist_append_right _ _)
  | .initHeader id cs, o, B, h => by
    simp only [ownerBodyIn] at h
    exact (ownerBodyL_ids cs o B h).trans (List.sublist_cons_self _ _)
  | .declS id ns vs, o, B, h => by
    simp only [ownerBodyIn, Option.orElse_eq_some] at h
    refine List.Sublist.trans ?_ (List.sublist_cons_self _ _)
    rcases h with h | ⟨_, h⟩
    · exact (ownerBodyL_ids ns o B h).trans (List.sublist_append_left _ _)
    · exact (ownerBodyL_ids vs o B h).trans (List.sublist_append_right _ _)
  | .other id cs, o, B, h => by
    simp only [ownerBodyIn] at h
    exact (ownerBodyL_ids cs o B h).trans (List.sublist_cons_self _ _)

theorem ownerBodyL_ids : ∀ (l : List Node) (o : Nat) (B : List Node),
    ownerBodyInL o l = some B → (nodeIdsL B).Sublist (nodeIdsL l)
  | [], _, _, h => by simp [ownerBodyInL] at h
  | n :: ns, o, B, h => by
    simp only [ownerBodyInL, Option.orElse_eq_some] at h
    rcases h with h | ⟨_, h⟩
    · exact (ownerBody_ids n o B h).trans (List.sublist_append_left _ _)
    · exact (ownerBodyL_ids ns o B h).trans (List.sublist_append_right _ _)
end

/-- `refsFor` distributes over concatenation of change lists. -/
theorem refsFor_append (a b : List Change) (o : Nat) :
    refsFor (a ++ b) o = refsFor a o ++ refsFor b o := by
  simp [refsFor, List.filter_append, List.filterMap_append]

/-- The refs a single change contributes to an owner. -/
theorem refsFor_one (c : Change) (o : Nat) :
    refsFor [c] o = if c.listOwner = some o then c.ref.toList else [] := by
  by_cases h : c.listOwner = some o
  · simp only [refsFor, List.filter_cons, if_pos h, beq_iff_eq, h, if_pos,
      List.filterMap_cons, List.filterMap_nil]
    cases hr : c.ref <;> simp [hr]
  · simp only [refsFor, List.filter_cons, if_neg h]
    have hb : (c.listOwner == some o) = false := by
      simp [beq_iff_eq]; exact h
    simp [hb]

/-- The changes `assignStmt` appends: none at all, or exactly one,
recorded outside init/comm position, carrying the visitor's list, label
slot and reference. -/
theorem assignStep_changes (ctx : Ctx) (id pos : Nat) (lhs : List Node) (tok : Tok) :
    (assignStep ctx id pos lhs tok).2.2.2 = [] ∨
    ((ctx.init || ctx.comm) = false ∧
      (assignStep ctx id pos lhs tok).2.2.2 =
        [⟨id, if (processLhs lhs).2.1 > 0 then some (processLhs lhs).2.2.1 else none,
          ctx.list, ctx.ilabel,
          if ctx.ilabel.isSome then ctx.olabel else some id⟩]) := by
  unfold assignStep
  by_cases h1 : (processLhs lhs).1 = 0
  · simp [h1]
  · by_cases h2 : (ctx.init || ctx.comm) = true
    · by_cases h3 : (processLhs lhs).2.1 = 0 <;> simp [h1, h2, h3]
    · right
      rw [Bool.not_eq_true] at h2
      simp [h1, h2]

/-- The inner-owner soundness condition: the refs recorded for owner `o`
inside a subtree are empty, or `o` lies in the subtree and its owned
body's entry identities cover the refs. -/
def InnerOK (o : Nat) (refs : List Nat) (ids : List Nat)
    (f : Option (List Node)) : Prop :=
  refs = [] ∨ (o ∈ ids ∧ ∃ B, f = some B ∧ refs.Sublist (topIds B))

/-- An inner-owner disjunct with membership forces empty refs when the
owner is not in the subtree. -/
theorem inner_empty (o : Nat) (refs : List Nat) (ids : List Nat)
    (f : Option (List Node))
    (h : InnerOK o refs ids f)
    (hno : o ∉ ids) : refs = [] := by
  rcases h with h | ⟨hm, _⟩
  · exact h
  · exact absurd hm hno

/-- `InnerOK` transports along a larger subtree and an equal lookup. -/
theorem InnerOK_cast (o : Nat) (refs : List Nat) (ids ids' : List Nat)
    (f f' : Option (List Node)) (h : InnerOK o refs ids f)
    (hsub : ∀ a, a ∈ ids → a ∈ ids') (hf : f = f') : InnerOK o refs ids' f' := by
  rcases h with h | ⟨hm, B, hfB, hs⟩
  · exact Or.inl h
  · exact Or.inr ⟨hsub o hm, B, hf ▸ hfB, hs⟩

/-- Combining the inner-owner disjuncts of two disjoint siblings. -/
theorem innerCombine2 (o : Nat) (r1 r2 : List Nat) (f1 f2 : Option (List Node))
    (ids1 ids2 : List Nat)
    (hd : ∀ a, a ∈ ids1 → a ∉ ids2)
    (h1 : InnerOK o r1 ids1 f1)
    (h2 : InnerOK o r2 ids2 f2)
    (hn1 : o ∉ ids1 → f1 = none) :
    InnerOK o (r1 ++ r2) (ids1 ++ ids2) (f1 <|> f2) := by
  rcases h1 with h1 | ⟨hm1, B1, hf1, hs1⟩
  · rcases h2 with h2 | ⟨hm2, B2, hf2, hs2⟩
    · left; rw [h1, h2]; rfl
    · right
      have hno1 : o ∉ ids1 := fun hx => hd o hx hm2
      refine ⟨List.mem_append.mpr (Or.inr hm2), B2, ?_, ?_⟩
      · rw [hn1 hno1, hf2]; rfl
      · rw [h1]; simpa using hs2
  · right
    have hr2 : r2 = [] := by
      rcases h2 with h2 | ⟨hm2, _⟩
      · exact h2
      · exact absurd hm2 (hd o hm1)
    refine ⟨List.mem_append.mpr (Or.inl hm1), B1, ?_, ?_⟩
    · rw [hf1]; rfl
    · rw [hr2]; simpa using hs1

/-- `Option.orElse` is associative. -/
theorem optOr_assoc {α : Type} (a b c : Option α) :
    ((a <|> b) <|> c) = (a <|> (b <|> c)) := by
  cases a <;> rfl

/-- `topIds` of a cons as an append of the head identity. -/
theorem topIds_cons (n : Node) (ns : List Node) :
    topIds (n :: ns) = (nodeId n).toList ++ topIds ns := by
  cases h : nodeId n <;> simp [topIds, List.filterMap_cons, h]

/-- Split a true boolean conjunction. -/
theorem band_true {a b : Bool} (h : (a && b) = true) : a = true ∧ b = true := by
  simp at h; exact h

mutual
/-- Walk-side change soundness, node form: under node-identity
uniqueness and parser shape facts, the changes a visit records for a
statement-list owner `o` either (P1) sit directly in the owner's list
and reference the visitor's own resolution target (the outermost label
if labeled, the node itself otherwise), or (P2) vanish in comm
position, or (P3) target a list owned strictly inside the node, whose
entry identities cover the refs in order. -/
theorem walk_refs : ∀ (n : Node) (ctx : Ctx),
    (nodeIds n).Nodup → wfShape n = true →
    ctx.ilabel.isSome = ctx.olabel.isSome →
    (∀ x, ctx.list = some x → x ∉ nodeIds n) →
    ∀ o : Nat,
      (ctx.list = some o →
        (refsFor (walkNode ctx n).2.2 o).Sublist
          ((ctx.olabel <|> nodeId n).toList)) ∧
      (ctx.list = some o → ctx.comm = true → isLabeledB n = false →
        refsFor (walkNode ctx n).2.2 o = []) ∧
      (ctx.list ≠ some o →
        InnerOK o (refsFor (walkNode ctx n).2.2 o) (nodeIds n)
          (ownerBodyIn o (walkNode ctx n).1))
  | .nilE, ctx => by
    intro _ _ _ _ o
    refine ⟨fun _ => ?_, fun _ _ _ => rfl, fun _ => Or.inl rfl⟩
    exact List.nil_sublist _
  | .ident p nm, ctx => by
    intro _ _ _ _ o
    refine ⟨fun _ => ?_, fun _ _ _ => rfl, fun _ => Or.inl rfl⟩
    exact List.nil_sublist _
  | .assign id pos lhs tok rhs, ctx => by
    intro hnd hwf hlab hfresh o
    obtain ⟨hid, hrest⟩ := List.nodup_cons.mp
      (show (id :: (nodeIdsL lhs ++ nodeIdsL rhs)).Nodup from hnd)
    obtain ⟨hndl, hndr, hdisj⟩ := List.nodup_append.mp hrest
    obtain ⟨hwfl, hwfr⟩ := band_true
      (show (wfShapeL lhs && wfShapeL rhs) = true from hwf)
    have hLhs := walkLhs_refs lhs hndl hwfl o
    have hRhs := (walkList_refs rhs freshCtx hndr hwfr rfl rfl
      (fun x hx => by simp [freshCtx] at hx) o).2 (by simp [freshCtx])
    have hcs : (walkNode ctx (.assign id pos lhs tok rhs)).2.2
        = (assignStep ctx id pos lhs tok).2.2.2 ++ (walkLhs lhs).2.2
          ++ (walkList freshCtx rhs).2.2 := by
      simp [walkNode]
    have hrefs : refsFor (walkNode ctx (.assign id pos lhs tok rhs)).2.2 o
        = refsFor (assignStep ctx id pos lhs tok).2.2.2 o
          ++ refsFor (walkLhs lhs).2.2 o
          ++ refsFor (walkList freshCtx rhs).2.2 o := by
      rw [hcs, refsFor_append, refsFor_append]
    refine ⟨?_, ?_, ?_⟩
    · intro hl
      have hno := hfresh o hl
      have hnol : o ∉ nodeIdsL lhs :=
        fun hm => hno (List.mem_cons_of_mem _ (List.mem_append.mpr (Or.inl hm)))
      have hnor : o ∉ nodeIdsL rhs :=
        fun hm => hno (List.mem_cons_of_mem _ (List.mem_append.mpr (Or.inr hm)))
      have hl0 := inner_empty o _ _ _ hLhs hnol
      have hr0 := inner_empty o _ _ _ hRhs hnor
      rw [hrefs, hl0, hr0, List.append_nil, List.append_nil]
      rcases assignStep_changes ctx id pos lhs tok with hs | ⟨hic, hs⟩
      · rw [hs]; exact List.nil_sublist _
      · rw [hs, refsFor_one, if_pos (show _ = some o from hl)]
        cases hil : ctx.ilabel with
        | none =>
          cases holc : ctx.olabel with
          | none => simp [hil, holc, nodeId]
          | some v => rw [hil, holc] at hlab; simp at hlab
        | some lv =>
          cases holc : ctx.olabel with
          | none => rw [hil, holc] at hlab; simp at hlab
          | some v => simp [hil, holc]
    · intro hl hcomm _
      have hno := hfresh o hl
      have hnol : o ∉ nodeIdsL lhs :=
        fun hm => hno (List.mem_cons_of_mem _ (List.mem_append.mpr (Or.inl hm)))
      have hnor : o ∉ nodeIdsL rhs :=
        fun hm => hno (List.mem_cons_of_mem _ (List.mem_append.mpr (Or.inr hm)))
      have hl0 := inner_empty o _ _ _ hLhs hnol
      have hr0 := inner_empty o _ _ _ hRhs hnor
      rw [hrefs, hl0, hr0, List.append_nil, List.append_nil]
      rcases assignStep_changes ctx id pos lhs tok with hs | ⟨hic, hs⟩
      · rw [hs]; rfl
      · rw [hcomm] at hic; simp at hic
    · intro hl
      have hs0 : refsFor (assignStep ctx id pos lhs tok).2.2.2 o = [] := by
        rcases assignStep_changes ctx id pos lhs tok with hs | ⟨hic, hs⟩
        · rw [hs]; rfl
        · rw [hs, refsFor_one, if_neg (show ¬ _ = some o from hl)]
      have hcomb := innerCombine2 o _ _
        (ownerBodyInL o (walkLhs lhs).1)
        (ownerBodyInL o (walkList freshCtx rhs).1)
        (nodeIdsL lhs) (nodeIdsL rhs)
        (fun a ha hb => hdisj ha hb) hLhs hRhs
        (fun hno => ownerBodyInL_none _ o (by rw [walkLhs_ids]; exact hno))
      rw [hrefs, hs0, List.nil_append]
      have hw1 : (walkNode ctx (.assign id pos lhs tok rhs)).1
          = .assign id pos (walkLhs lhs).1 (assignStep ctx id pos lhs tok).2.1
            (walkList freshCtx rhs).1 := by
        simp [walkNode]
      rw [hw1]
      exact InnerOK_cast o _ _ _ _ _ hcomb
        (fun a ha => List.mem_cons_of_mem _ ha) rfl
  | .labeled id lab child, ctx => by
    intro hnd hwf hlab hfresh o
    cases lab with
    | ident p nm =>
      have hwfc : wfShape child = true := by
        have := band_true (show (true && wfShape child) = true from hwf)
        exact this.2
      obtain ⟨hid, hrest⟩ := List.nodup_cons.mp
        (show (id :: (nodeIds (Node.ident p nm) ++ nodeIds child)).Nodup from hnd)
      have hndc : (nodeIds child).Nodup := by
        rw [show nodeIds (Node.ident p nm) ++ nodeIds child = nodeIds child
          from rfl] at hrest
        exact hrest
      have hfresh2 : ∀ x,
          (⟨false, false, ctx.list, some id, some (ctx.olabel.getD id)⟩ : Ctx).list
            = some x → x ∉ nodeIds child :=
        fun x hx hm => hfresh x hx
          (List.mem_cons_of_mem _ (List.mem_append.mpr (Or.inr hm)))
      have hcw := walk_refs child
        ⟨false, false, ctx.list, some id, some (ctx.olabel.getD id)⟩
        hndc hwfc rfl hfresh2 o
      have hcs : (walkNode ctx (.labeled id (.ident p nm) child)).2.2
          = (walkNode ⟨false, false, ctx.list, some id,
              some (ctx.olabel.getD id)⟩ child).2.2 := by
        simp [walkNode]
      have hw1 : (walkNode ctx (.labeled id (.ident p nm) child)).1
          = .labeled id (.ident p nm)
              (walkNode ⟨false, false, ctx.list, some id,
                some (ctx.olabel.getD id)⟩ child).1 := by
        simp [walkNode]
      refine ⟨?_, ?_, ?_⟩
      · intro hl
        have h1 := hcw.1 hl
        rw [hcs]
        refine List.Sublist.trans h1 ?_
        cases holc : ctx.olabel <;> simp [holc, nodeId]
      · intro _ _ hlabn
        simp [isLabeledB] at hlabn
      · intro hl
        have h3 := hcw.2.2 hl
        rw [hcs, hw1]
        refine InnerOK_cast o _ _ _ _ _ h3
          (fun a ha => List.mem_cons_of_mem _ (List.mem_append.mpr (Or.inr ha))) rfl
    | nilE => simp [wfShape] at hwf
    | assign a b c d e => simp [wfShape] at hwf
    | labeled a b c => simp [wfShape] at hwf
    | block a b => simp [wfShape] at hwf
    | caseClause a b => simp [wfShape] at hwf
    | commClause a b c => simp [wfShape] at hwf
    | rangeS a b c d e f g => simp [wfShape] at hwf
    | initHeader a b => simp [wfShape] at hwf
    | declS a b c => simp [wfShape] at hwf
    | other a b => simp [wfShape] at hwf
  | .block id body, ctx => by
    intro hnd hwf hlab hfresh o
    obtain ⟨hid, hndb⟩ := List.nodup_cons.mp
      (show (id :: nodeIdsL body).Nodup from hnd)
    have hfresh2 : ∀ x,
        (⟨false, false, some id, none, none⟩ : Ctx).list = some x →
          x ∉ nodeIdsL body :=
      fun x hx => by cases Option.some.inj hx; exact hid
    have hWL := walkList_refs body ⟨false, false, some id, none, none⟩
      hndb (show wfShapeL body = true from hwf) rfl rfl hfresh2 o
    have hcs : (walkNode ctx (.block id body)).2.2
        = (walkList ⟨false, false, some id, none, none⟩ body).2.2 := by
      simp [walkNode]
    have hw1 : (walkNode ctx (.block id body)).1
        = .block id (walkList ⟨false, false, some id, none, none⟩ body).1 := by
      simp [walkNode]
    refine ⟨?_, ?_, ?_⟩
    · intro hl
      have hno := hfresh o hl
      have hne : o ≠ id := fun h => hno (h ▸ List.mem_cons_self _ _)
      have hnob : o ∉ nodeIdsL body := fun hm => hno (List.mem_cons_of_mem _ hm)
      have h0 := inner_empty o _ _ _
        (hWL.2 (fun h => hne (Option.some.inj h).symm)) hnob
      rw [hcs, h0]
      exact List.nil_sublist _
    · intro hl _ _
      have hno := hfresh o hl
      have hne : o ≠ id := fun h => hno (h ▸ List.mem_cons_self _ _)
      have hnob : o ∉ nodeIdsL body := fun hm => hno (List.mem_cons_of_mem _ hm)
      have h0 := inner_empty o _ _ _
        (hWL.2 (fun h => hne (Option.some.inj h).symm)) hnob
      rw [hcs, h0]
    · intro hl
      rw [hcs, hw1]
      by_cases hio : id = o
      · have h1 := hWL.1 (by rw [hio])
        exact Or.inr ⟨hio ▸ List.mem_cons_self _ _,
          (walkList ⟨false, false, some id, none, none⟩ body).1,
          by simp [ownerBodyIn, hio], h1⟩
      · have h3 := hWL.2 (fun h => hio (Option.some.inj h))
        refine InnerOK_cast o _ _ _ _ _ h3
          (fun a ha => List.mem_cons_of_mem _ ha) ?_
        simp [ownerBodyIn, hio]
  | .caseClause id body, ctx => by
    intro hnd hwf hlab hfresh o
    obtain ⟨hid, hndb⟩ := List.nodup_cons.mp
      (show (id :: nodeIdsL body).Nodup from hnd)
    have hfresh2 : ∀ x,
        (⟨false, false, some id, none, none⟩ : Ctx).list = some x →
          x ∉ nodeIdsL body :=
      fun x hx => by cases Option.some.inj hx; exact hid
    have hWL := walkList_refs body ⟨false, false, some id, none, none⟩
      hndb (show wfShapeL body = true from hwf) rfl rfl hfresh2 o
    have hcs : (walkNode ctx (.caseClause id body)).2.2
        = (walkList ⟨false, false, some id, none, none⟩ body).2.2 := by
      simp [walkNode]
    have hw1 : (walkNode ctx (.caseClause id body)).1
        = .caseClause id (walkList ⟨false, false, some id, none, none⟩ body).1 := by
      simp [walkNode]
    refine ⟨?_, ?_, ?_⟩
    · intro hl
      have hno := hfresh o hl
      have hne : o ≠ id := fun h => hno (h ▸ List.mem_cons_self _ _)
      have hnob : o ∉ nodeIdsL body := fun hm => hno (List.mem_cons_of_mem _ hm)
      have h0 := inner_empty o _ _ _
        (hWL.2 (fun h => hne (Option.some.inj h).symm)) hnob
      rw [hcs, h0]
      exact List.nil_sublist _
    · intro hl _ _
      have hno := hfresh o hl
      have hne : o ≠ id := fun h => hno (h ▸ List.mem_cons_self _ _)
      have hnob : o ∉ nodeIdsL body := fun hm => hno (List.mem_cons_of_mem _ hm)
      have h0 := inner_empty o _ _ _
        (hWL.2 (fun h => hne (Option.some.inj h).symm)) hnob
      rw [hcs, h0]
    · intro hl
      rw [hcs, hw1]
      by_cases hio : id = o
      · have h1 := hWL.1 (by rw [hio])
        exact Or.inr ⟨hio ▸ List.mem_cons_self _ _,
          (walkList ⟨false, false, some id, none, none⟩ body).1,
          by simp [ownerBodyIn, hio], h1⟩
      · have h3 := hWL.2 (fun h => hio (Option.some.inj h))
        refine InnerOK_cast o _ _ _ _ _ h3
          (fun a ha => List.mem_cons_of_mem _ ha) ?_
        simp [ownerBodyIn, hio]
  | .commClause id comm body, ctx => by
    intro hnd hwf hlab hfresh o
    obtain ⟨hid, hrest⟩ := List.nodup_cons.mp
      (show (id :: (nodeIds comm ++ nodeIdsL body)).Nodup from hnd)
    obtain ⟨hndc, hndb, hdisj⟩ := List.nodup_append.mp hrest
    obtain ⟨hwfcb, hwfb⟩ := band_true
      (show ((!isLabeledB comm && wfShape comm) && wfShapeL body) = true from hwf)
    obtain ⟨hnl, hwfc⟩ := band_true hwfcb
    have hidc : id ∉ nodeIds comm :=
      fun hm => hid (List.mem_append.mpr (Or.inl hm))
    have hidb : id ∉ nodeIdsL body :=
      fun hm => hid (List.mem_append.mpr (Or.inr hm))
    have hWc := walk_refs comm ⟨false, true, some id, none, none⟩
      hndc hwfc rfl (fun x hx => by cases Option.some.inj hx; exact hidc) o
    have hWb := walkList_refs body ⟨false, false, some id, none, none⟩
      hndb hwfb rfl rfl (fun x hx => by cases Option.some.inj hx; exact hidb) o
    have hcs : (walkNode ctx (.commClause id comm body)).2.2
        = (walkNode ⟨false, true, some id, none, none⟩ comm).2.2
          ++ (walkList ⟨false, false, some id, none, none⟩ body).2.2 := by
      simp [walkNode]
    have hw1 : (walkNode ctx (.commClause id comm body)).1
        = .commClause id (walkNode ⟨false, true, some id, none, none⟩ comm).1
            (walkList ⟨false, false, some id, none, none⟩ body).1 := by
      simp [walkNode]
    have hrefs : refsFor (walkNode ctx (.commClause id comm body)).2.2 o
        = refsFor (walkNode ⟨false, true, some id, none, none⟩ comm).2.2 o
          ++ refsFor (walkList ⟨false, false, some id, none, none⟩ body).2.2 o := by
      rw [hcs, refsFor_append]
    refine ⟨?_, ?_, ?_⟩
    · intro hl
      have hno := hfresh o hl
      have hne : o ≠ id := fun h => hno (h ▸ List.mem_cons_self _ _)
      have hnoc : o ∉ nodeIds comm :=
        fun hm => hno (List.mem_cons_of_mem _ (List.mem_append.mpr (Or.inl hm)))
      have hnob : o ∉ nodeIdsL body :=
        fun hm => hno (List.mem_cons_of_mem _ (List.mem_append.mpr (Or.inr hm)))
      have hc0 := inner_empty o _ _ _
        (hWc.2.2 (fun h => hne (Option.some.inj h).symm)) hnoc
      have hb0 := inner_empty o _ _ _
        (hWb.2 (fun h => hne (Option.some.inj h).symm)) hnob
      rw [hrefs, hc0, hb0]
      exact List.nil_sublist _
    · intro hl _ _
      have hno := hfresh o hl
      have hne : o ≠ id := fun h => hno (h ▸ List.mem_cons_self _ _)
      have hnoc : o ∉ nodeIds comm :=
        fun hm => hno (List.mem_cons_of_mem _ (List.mem_append.mpr (Or.inl hm)))
      have hnob : o ∉ nodeIdsL body :=
        fun hm => hno (List.mem_cons_of_mem _ (List.mem_append.mpr (Or.inr hm)))
      have hc0 := inner_empty o _ _ _
        (hWc.2.2 (fun h => hne (Option.some.inj h).symm)) hnoc
      have hb0 := inner_empty o _ _ _
        (hWb.2 (fun h => hne (Option.some.inj h).symm)) hnob
      rw [hrefs, hc0, hb0]
      rfl
    · intro hl
      by_cases hio : id = o
      · have hc0 := hWc.2.1 (by rw [hio]) rfl
          (by rw [Bool.not_eq_true'] at hnl; exact hnl)
        have hb1 := hWb.1 (by rw [hio])
        refine Or.inr ⟨hio ▸ List.mem_cons_self _ _,
          (walkList ⟨false, false, some id, none, none⟩ body).1,
          by rw [hw1]; simp [ownerBodyIn, hio], ?_⟩
        rw [hrefs, hc0, List.nil_append]
        exact hb1
      · have hcomb := innerCombine2 o _ _
          (ownerBodyIn o (walkNode ⟨false, true, some id, none, none⟩ comm).1)
          (ownerBodyInL o (walkList ⟨false, false, some id, none, none⟩ body).1)
          (nodeIds comm) (nodeIdsL body)
          (fun a ha hb => hdisj ha hb)
          (hWc.2.2 (fun h => hio (Option.some.inj h)))
          (hWb.2 (fun h => hio (Option.some.inj h)))
          (fun hno => ownerBodyIn_none _ o (by rw [walk_ids]; exact hno))
        rw [hrefs, hw1]
        refine InnerOK_cast o _ _ _ _ _ hcomb
          (fun a ha => List.mem_cons_of_mem _ ha) ?_
        simp [ownerBodyIn, hio]
  | .rangeS id pos key value tok x body, ctx => by
    intro hnd hwf hlab hfresh o
    obtain ⟨hid, hrest⟩ := List.nodup_cons.mp
      (show (id :: (nodeIds key ++ nodeIds value ++ nodeIds x ++ nodeIds body)).Nodup
        from hnd)
    obtain ⟨hkvx, hndb, hdisj3⟩ := List.nodup_append.mp hrest
    obtain ⟨hkv, hndx, hdisj2⟩ := List.nodup_append.mp hkvx
    obtain ⟨hndk, hndv, hdisj1⟩ := List.nodup_append.mp hkv
    obtain ⟨hwfkvx, hwfb⟩ := band_true
      (show ((wfShape key && wfShape value && wfShape x) && wfShape body) = true
        from hwf)
    obtain ⟨hwfkv, hwfx⟩ := band_true hwfkvx
    obtain ⟨hwfk, hwfv⟩ := band_true hwfkv
    have hK := fixLhs_refs key hndk hwfk o
    have hV := fixLhs_refs value hndv hwfv o
    have hX := (walk_refs x freshCtx hndx hwfx rfl
      (fun y hy => by simp [freshCtx] at hy) o).2.2 (by simp [freshCtx])
    have hB := (walk_refs body freshCtx hndb hwfb rfl
      (fun y hy => by simp [freshCtx] at hy) o).2.2 (by simp [freshCtx])
    have hcs : (walkNode ctx (.rangeS id pos key value tok x body)).2.2
        = (fixLhsEntry key (walkNode freshCtx key)).2.2
          ++ (fixLhsEntry value (walkNode freshCtx value)).2.2
          ++ (walkNode freshCtx x).2.2 ++ (walkNode freshCtx body).2.2 := by
      simp [walkNode]
    have hw1 : (walkNode ctx (.rangeS id pos key value tok x body)).1
        = .rangeS id pos (fixLhsEntry key (walkNode freshCtx key)).1
            (fixLhsEntry value (walkNode freshCtx value)).1
            (rangeStep pos key value tok).2.2.1
            (walkNode freshCtx x).1 (walkNode freshCtx body).1 := by
      simp [walkNode]
    have hrefs : refsFor (walkNode ctx (.rangeS id pos key value tok x body)).2.2 o
        = refsFor (fixLhsEntry key (walkNode freshCtx key)).2.2 o
          ++ refsFor (fixLhsEntry value (walkNode freshCtx value)).2.2 o
          ++ refsFor (walkNode freshCtx x).2.2 o
          ++ refsFor (walkNode freshCtx body).2.2 o := by
      rw [hcs, refsFor_append, refsFor_append, refsFor_append]
    have hnK : o ∉ nodeIds key →
        ownerBodyIn o (fixLhsEntry key (walkNode freshCtx key)).1 = none :=
      fun hno => ownerBodyIn_none _ o (by rw [fixLhs_ids]; exact hno)
    have hnV : o ∉ nodeIds value →
        ownerBodyIn o (fixLhsEntry value (walkNode freshCtx value)).1 = none :=
      fun hno => ownerBodyIn_none _ o (by rw [fixLhs_ids]; exact hno)
    have hnX : o ∉ nodeIds x →
        ownerBodyIn o (walkNode freshCtx x).1 = none :=
      fun hno => ownerBodyIn_none _ o (by rw [walk_ids]; exact hno)
    refine ⟨?_, ?_, ?_⟩
    · intro hl
      have hno := hfresh o hl
      have hnok : o ∉ nodeIds key := fun hm => hno (List.mem_cons_of_mem _
        (List.mem_append.mpr (Or.inl (List.mem_append.mpr (Or.inl
          (List.mem_append.mpr (Or.inl hm)))))))
      have hnov : o ∉ nodeIds value := fun hm => hno (List.mem_cons_of_mem _
        (List.mem_append.mpr (Or.inl (List.mem_append.mpr (Or.inl
          (List.mem_append.mpr (Or.inr hm)))))))
      have hnox : o ∉ nodeIds x := fun hm => hno (List.mem_cons_of_mem _
        (List.mem_append.mpr (Or.inl (List.mem_append.mpr (Or.inr hm)))))
      have hnob : o ∉ nodeIds body := fun hm => hno (List.mem_cons_of_mem _
        (List.mem_append.mpr (Or.inr hm)))
      rw [hrefs, inner_empty o _ _ _ hK hnok, inner_empty o _ _ _ hV hnov,
        inner_empty o _ _ _ hX hnox, inner_empty o _ _ _ hB hnob]
      exact List.nil_sublist _
    · intro hl _ _
      have hno := hfresh o hl
      have hnok : o ∉ nodeIds key := fun hm => hno (List.mem_cons_of_mem _
        (List.mem_append.mpr (Or.inl (List.mem_append.mpr (Or.inl
          (List.mem_append.mpr (Or.inl hm)))))))
      have hnov : o ∉ nodeIds value := fun hm => hno (List.mem_cons_of_mem _
        (List.mem_append.mpr (Or.inl (List.mem_append.mpr (Or.inl
          (List.mem_append.mpr (Or.inr hm)))))))
      have hnox : o ∉ nodeIds x := fun hm => hno (List.mem_cons_of_mem _
        (List.mem_append.mpr (Or.inl (List.mem_append.mpr (Or.inr hm)))))
      have hnob : o ∉ nodeIds body := fun hm => hno (List.mem_cons_of_mem _
        (List.mem_append.mpr (Or.inr hm)))
      rw [hrefs, inner_empty o _ _ _ hK hnok, inner_empty o _ _ _ hV hnov,
        inner_empty o _ _ _ hX hnox, inner_empty o _ _ _ hB hnob]
      rfl
    · intro hl
      have c1 := innerCombine2 o _ _ _ _ _ _ (fun a ha hb => hdisj1 ha hb) hK hV hnK
      have c2 := innerCombine2 o _ _ _ _ _ _ (fun a ha hb => hdisj2 ha hb) c1 hX
        (fun hno => by
          rw [hnK (fun hm => hno (List.mem_append.mpr (Or.inl hm))),
            hnV (fun hm => hno (List.mem_append.mpr (Or.inr hm)))]
          rfl)
      have c3 := innerCombine2 o _ _ _ _ _ _ (fun a ha hb => hdisj3 ha hb) c2 hB
        (fun hno => by
          rw [hnK (fun hm => hno (List.mem_append.mpr (Or.inl
              (List.mem_append.mpr (Or.inl hm))))),
            hnV (fun hm => hno (List.mem_append.mpr (Or.inl
              (List.mem_append.mpr (Or.inr hm))))),
            hnX (fun hm => hno (List.mem_append.mpr (Or.inr hm)))]
          rfl)
      rw [hrefs, hw1]
      refine InnerOK_cast o _ _ _ _ _ c3
        (fun a ha => List.mem_cons_of_mem _ ha) ?_
      rw [optOr_assoc, optOr_assoc]
      rfl
  | .initHeader id children, ctx => by
    intro hnd hwf hlab hfresh o
    obtain ⟨hid, hndc⟩ := List.nodup_cons.mp
      (show (id :: nodeIdsL children).Nodup from hnd)
    have hW := (walkList_refs children ⟨true, false, none, none, none⟩
      hndc (show wfShapeL children = true from hwf) rfl rfl
      (fun x hx => by simp at hx) o).2 (by simp)
    have hcs : (walkNode ctx (.initHeader id children)).2.2
        = (walkList ⟨true, false, none, none, none⟩ children).2.2 := by
      simp [walkNode]
    have hw1 : (walkNode ctx (.initHeader id children)).1
        = .initHeader id (walkList ⟨true, false, none, none, none⟩ children).1 := by
      simp [walkNode]
    refine ⟨?_, ?_, ?_⟩
    · intro hl
      have hno := hfresh o hl
      have hnoc : o ∉ nodeIdsL children := fun hm => hno (List.mem_cons_of_mem _ hm)
      rw [hcs, inner_empty o _ _ _ hW hnoc]
      exact List.nil_sublist _
    · intro hl _ _
      have hno := hfresh o hl
      have hnoc : o ∉ nodeIdsL children := fun hm => hno (List.mem_cons_of_mem _ hm)
      rw [hcs, inner_empty o _ _ _ hW hnoc]
    · intro hl
      rw [hcs, hw1]
      exact InnerOK_cast o _ _ _ _ _ hW
        (fun a ha => List.mem_cons_of_mem _ ha) rfl
  | .declS id ns vs, ctx => by
    intro hnd hwf hlab hfresh o
    obtain ⟨hid, hrest⟩ := List.nodup_cons.mp
      (show (id :: (nodeIdsL ns ++ nodeIdsL vs)).Nodup from hnd)
    obtain ⟨hndn, hndv, hdisj⟩ := List.nodup_append.mp hrest
    obtain ⟨hwfn, hwfv⟩ := band_true
      (show (wfShapeL ns && wfShapeL vs) = true from hwf)
    have hN := (walkList_refs ns freshCtx hndn hwfn rfl rfl
      (fun x hx => by simp [freshCtx] at hx) o).2 (by simp [freshCtx])
    have hV := (walkList_refs vs freshCtx hndv hwfv rfl rfl
      (fun x hx => by simp [freshCtx] at hx) o).2 (by simp [freshCtx])
    have hcs : (walkNode ctx (.declS id ns vs)).2.2
        = (walkList freshCtx ns).2.2 ++ (walkList freshCtx vs).2.2 := by
      simp [walkNode]
    have hw1 : (walkNode ctx (.declS id ns vs)).1
        = .declS id (walkList freshCtx ns).1 (walkList freshCtx vs).1 := by
      simp [walkNode]
    have hrefs : refsFor (walkNode ctx (.declS id ns vs)).2.2 o
        = refsFor (walkList freshCtx ns).2.2 o
          ++ refsFor (walkList freshCtx vs).2.2 o := by
      rw [hcs, refsFor_append]
    refine ⟨?_, ?_, ?_⟩
    · intro hl
      have hno := hfresh o hl
      have hnon : o ∉ nodeIdsL ns :=
        fun hm => hno (List.mem_cons_of_mem _ (List.mem_append.mpr (Or.inl hm)))
      have hnov : o ∉ nodeIdsL vs :=
        fun hm => hno (List.mem_cons_of_mem _ (List.mem_append.mpr (Or.inr hm)))
      rw [hrefs, inner_empty o _ _ _ hN hnon, inner_empty o _ _ _ hV hnov]
      exact List.nil_sublist _
    · intro hl _ _
      have hno := hfresh o hl
      have hnon : o ∉ nodeIdsL ns :=
        fun hm => hno (List.mem_cons_of_mem _ (List.mem_append.mpr (Or.inl hm)))
      have hnov : o ∉ nodeIdsL vs :=
        fun hm => hno (List.mem_cons_of_mem _ (List.mem_append.mpr (Or.inr hm)))
      rw [hrefs, inner_empty o _ _ _ hN hnon, inner_empty o _ _ _ hV hnov]
      rfl
    · intro hl
      have hcomb := innerCombine2 o _ _
        (ownerBodyInL o (walkList freshCtx ns).1)
        (ownerBodyInL o (walkList freshCtx vs).1)
        (nodeIdsL ns) (nodeIdsL vs)
        (fun a ha hb => hdisj ha hb) hN hV
        (fun hno => ownerBodyInL_none _ o (by rw [walkList_ids]; exact hno))
      rw [hrefs, hw1]
      exact InnerOK_cast o _ _ _ _ _ hcomb
        (fun a ha => List.mem_cons_of_mem _ ha) rfl
  | .other id children, ctx => by
    intro hnd hwf hlab hfresh o
    obtain ⟨hid, hndc⟩ := List.nodup_cons.mp
      (show (id :: nodeIdsL children).Nodup from hnd)
    have hW := (walkList_refs children freshCtx
      hndc (show wfShapeL children = true from hwf) rfl rfl
      (fun x hx => by simp [freshCtx] at hx) o).2 (by simp [freshCtx])
    have hcs : (walkNode ctx (.other id children)).2.2
        = (walkList freshCtx children).2.2 := by
      simp [walkNode]
    have hw1 : (walkNode ctx (.other id children)).1
        = .other id (walkList freshCtx children).1 := by
      simp [walkNode]
    refine ⟨?_, ?_, ?_⟩
    · intro hl
      have hno := hfresh o hl
      have hnoc : o ∉ nodeIdsL children := fun hm => hno (List.mem_cons_of_mem _ hm)
      rw [hcs, inner_empty o _ _ _ hW hnoc]
      exact List.nil_sublist _
    · intro hl _ _
      have hno := hfresh o hl
      have hnoc : o ∉ nodeIdsL children := fun hm => hno (List.mem_cons_of_mem _ hm)
      rw [hcs, inner_empty o _ _ _ hW hnoc]
    · intro hl
      rw [hcs, hw1]
      exact InnerOK_cast o _ _ _ _ _ hW
        (fun a ha => List.mem_cons_of_mem _ ha) rfl

/-- Walk-side change soundness, list form: the changes a statement
list's walk records for the owner of that very list reference, in
recording order, a subsequence of the list's own entry identities; for
any other owner the inner-owner condition holds. -/
theorem walkList_refs : ∀ (l : List Node) (ctx : Ctx),
    (nodeIdsL l).Nodup → wfShapeL l = true →
    ctx.ilabel = none → ctx.olabel = none →
    (∀ x, ctx.list = some x → x ∉ nodeIdsL l) →
    ∀ o : Nat,
      (ctx.list = some o →
        (refsFor (walkList ctx l).2.2 o).Sublist (topIds (walkList ctx l).1)) ∧
      (ctx.list ≠ some o →
        InnerOK o (refsFor (walkList ctx l).2.2 o) (nodeIdsL l)
          (ownerBodyInL o (walkList ctx l).1))
  | [], ctx => by
    intro _ _ _ _ _ o
    exact ⟨fun _ => List.nil_sublist _, fun _ => Or.inl rfl⟩
  | n :: ns, ctx => by
    intro hnd hwf hil hol hfresh o
    obtain ⟨hndn, hndns, hdisj⟩ := List.nodup_append.mp
      (show (nodeIds n ++ nodeIdsL ns).Nodup from hnd)
    obtain ⟨hwfn, hwfns⟩ := band_true
      (show (wfShape n && wfShapeL ns) = true from hwf)
    have hfreshn : ∀ x, ctx.list = some x → x ∉ nodeIds n :=
      fun x hx hm => hfresh x hx (List.mem_append.mpr (Or.inl hm))
    have hfreshns : ∀ x, ctx.list = some x → x ∉ nodeIdsL ns :=
      fun x hx hm => hfresh x hx (List.mem_append.mpr (Or.inr hm))
    have hWn := walk_refs n ctx hndn hwfn (by rw [hil, hol]) hfreshn o
    have hWns := walkList_refs ns ctx hndns hwfns hil hol hfreshns o
    have hcs : (walkList ctx (n :: ns)).2.2
        = (walkNode ctx n).2.2 ++ (walkList ctx ns).2.2 := by
      simp [walkList]
    have hw1 : (walkList ctx (n :: ns)).1
        = (walkNode ctx n).1 :: (walkList ctx ns).1 := by
      simp [walkList]
    refine ⟨?_, ?_⟩
    · intro hl
      have h1 := hWn.1 hl
      rw [hol] at h1
      have h2 := hWns.1 hl
      rw [hcs, refsFor_append, hw1, topIds_cons, walk_topId]
      exact List.Sublist.append (by simpa using h1) h2
    · intro hl
      have hcomb := innerCombine2 o _ _
        (ownerBodyIn o (walkNode ctx n).1)
        (ownerBodyInL o (walkList ctx ns).1)
        (nodeIds n) (nodeIdsL ns)
        (fun a ha hb => hdisj ha hb)
        (hWn.2.2 hl) (hWns.2 hl)
        (fun hno => ownerBodyIn_none _ o (by rw [walk_ids]; exact hno))
      rw [hcs, refsFor_append, hw1]
      exact hcomb

/-- Walk-side change soundness for the walked left-hand-side entries:
they sit in no statement list, so only the inner-owner condition is
relevant. -/
theorem walkLhs_refs : ∀ (l : List Node),
    (nodeIdsL l).Nodup → wfShapeL l = true →
    ∀ o : Nat,
      InnerOK o (refsFor (walkLhs l).2.2 o) (nodeIdsL l)
        (ownerBodyInL o (walkLhs l).1)
  | [] => by
    intro _ _ o
    exact Or.inl rfl
  | e :: es => by
    intro hnd hwf o
    obtain ⟨hnde, hndes, hdisj⟩ := List.nodup_append.mp
      (show (nodeIds e ++ nodeIdsL es).Nodup from hnd)
    obtain ⟨hwfe, hwfes⟩ := band_true
      (show (wfShape e && wfShapeL es) = true from hwf)
    have hE := fixLhs_refs e hnde hwfe o
    have hES := walkLhs_refs es hndes hwfes o
    have hcs : (walkLhs (e :: es)).2.2
        = (fixLhsEntry e (walkNode freshCtx e)).2.2 ++ (walkLhs es).2.2 := by
      simp [walkLhs]
    have hw1 : (walkLhs (e :: es)).1
        = (fixLhsEntry e (walkNode freshCtx e)).1 :: (walkLhs es).1 := by
      simp [walkLhs]
    have hcomb := innerCombine2 o _ _
      (ownerBodyIn o (fixLhsEntry e (walkNode freshCtx e)).1)
      (ownerBodyInL o (walkLhs es).1)
      (nodeIds e) (nodeIdsL es)
      (fun a ha hb => hdisj ha hb) hE hES
      (fun hno => ownerBodyIn_none _ o (by rw [fixLhs_ids]; exact hno))
    rw [hcs, refsFor_append, hw1]
    exact hcomb

/-- Walk-side change soundness for a single mutated left-hand-side
entry: an identifier's visit records nothing; any other entry behaves
like its plain walk. -/
theorem fixLhs_refs : ∀ (e : Node),
    (nodeIds e).Nodup → wfShape e = true →
    ∀ o : Nat,
      InnerOK o (refsFor (fixLhsEntry e (walkNode freshCtx e)).2.2 o) (nodeIds e)
        (ownerBodyIn o (fixLhsEntry e (walkNode freshCtx e)).1)
  | .ident p nm => fun _ _ o => Or.inl rfl
  | .nilE => fun hnd hwf o =>
    (walk_refs .nilE freshCtx hnd hwf rfl
      (fun y hy => by simp [freshCtx] at hy) o).2.2 (by simp [freshCtx])
  | .assign id pos lhs tok rhs => fun hnd hwf o =>
    (walk_refs (.assign id pos lhs tok rhs) freshCtx hnd hwf rfl
      (fun y hy => by simp [freshCtx] at hy) o).2.2 (by simp [freshCtx])
  | .labeled id lab child => fun hnd hwf o =>
    (walk_refs (.labeled id lab child) freshCtx hnd hwf rfl
      (fun y hy => by simp [freshCtx] at hy) o).2.2 (by simp [freshCtx])
  | .block id body => fun hnd hwf o =>
    (walk_refs (.block id body) freshCtx hnd hwf rfl
      (fun y hy => by simp [freshCtx] at hy) o).2.2 (by simp [freshCtx])
  | .caseClause id body => fun hnd hwf o =>
    (walk_refs (.caseClause id body) freshCtx hnd hwf rfl
      (fun y hy => by simp [freshCtx] at hy) o).2.2 (by simp [freshCtx])
  | .commClause id comm body => fun hnd hwf o =>
    (walk_refs (.commClause id comm body) freshCtx hnd hwf rfl
      (fun y hy => by simp [freshCtx] at hy) o).2.2 (by simp [freshCtx])
  | .rangeS id pos key value tok x body => fun hnd hwf o =>
    (walk_refs (.rangeS id pos key value tok x body) freshCtx hnd hwf rfl
      (fun y hy => by simp [freshCtx] at hy) o).2.2 (by simp [freshCtx])
  | .initHeader id cs => fun hnd hwf o =>
    (walk_refs (.initHeader id cs) freshCtx hnd hwf rfl
      (fun y hy => by simp [freshCtx] at hy) o).2.2 (by simp [freshCtx])
  | .declS id ns vs => fun hnd hwf o =>
    (walk_refs (.declS id ns vs) freshCtx hnd hwf rfl
      (fun y hy => by simp [freshCtx] at hy) o).2.2 (by simp [freshCtx])
  | .other id cs => fun hnd hwf o =>
    (walk_refs (.other id cs) freshCtx hnd hwf rfl
      (fun y hy => by simp [freshCtx] at hy) o).2.2 (by simp [freshCtx])
end

/-- A small translation unit used to exercise the ref-safety theorem: a
block owning one colon-marked assignment. -/
def demoTree : Node :=
  .block 1 [.assign 2 5 [.ident 0 [':', 'n']] .assign [.ident 0 ['f']]]

/-- C10: for every recorded Change, at the time it is applied the
reference statement is still present by identity in the statement list
the Change targets, so the panic branch of `indexStmt` is unreachable
during change application.  Formally: after the walk of a unit whose
node identities are distinct and whose shape satisfies the parser
guarantees, the references of the changes recorded against any one
statement-list owner `o` form, in recording order, a subsequence of the
distinct entry identities of the body owned by `o` in the walked tree;
consequently every sequence of list mutations the application engine
performs on that body — each `applyNonMixed` replacement (`setStmtAt`,
looked up by the assignment's identity, which is that change's `ref`)
and each `applyMixed` splice (`insertStmtsAfter`, looked up by `ref`),
in recording order, i.e. any `ops` whose refs are a subsequence of the
recorded refs — runs to completion with every `indexStmt` lookup
succeeding.  Distinct owners are distinct Go slice objects, so ops on
other owners' lists never disturb this body, label-slot rewrites
(`setLabelChild`) and the in-place `applyMixed` statement rewrite
(`replaceAssign`) preserve every entry identity, and labeled non-mixed
changes perform no lookup at all; hence the per-owner statement covers
all `indexStmt` calls of `xlateFile`'s application loop. -/
theorem change_refs_found_total (root : Node)
    (hnd : (nodeIds root).Nodup) (hwf : wfShape root = true)
    (o : Nat)
    (ho : refsFor (walkNode freshCtx root).2.2 o ≠ []) :
    ∃ B, ownerBodyIn o (walkNode freshCtx root).1 = some B ∧
      (refsFor (walkNode freshCtx root).2.2 o).Sublist (topIds B) ∧
      (topIds B).Nodup ∧
      ∀ ops : List ListOp,
        (ops.map ListOp.ref).Sublist (refsFor (walkNode freshCtx root).2.2 o) →
        (runListOps ops B).isSome := by
  have h := (walk_refs root freshCtx hnd hwf rfl
    (fun x hx => by simp [freshCtx] at hx) o).2.2 (by simp [freshCtx])
  rcases h with h | ⟨hm, B, hB, hs⟩
  · exact absurd h ho
  · have h1 : (nodeIdsL B).Sublist (nodeIds (walkNode freshCtx root).1) :=
      ownerBody_ids _ o B hB
    rw [walk_ids] at h1
    have htop : (topIds B).Nodup :=
      List.Nodup.sublist (topIds_sublist B) (List.Nodup.sublist h1 hnd)
    refine ⟨B, hB, hs, htop, ?_⟩
    intro ops hops
    refine runListOps_total ops B (List.Nodup.sublist hops
      (List.Nodup.sublist hs htop)) ?_
    intro op hop
    exact hs.subset (hops.subset (List.mem_map_of_mem _ hop))

/-- Witness: on the demo unit, the block's body is found, the single
recorded change's ref is its entry, and the concrete replacement op
sequence runs. -/
theorem change_refs_found_total_witness :
    ∃ B, ownerBodyIn 1 (walkNode freshCtx demoTree).1 = some B ∧
      (refsFor (walkNode freshCtx demoTree).2.2 1).Sublist (topIds B) ∧
      (topIds B).Nodup ∧
      ∀ ops : List ListOp,
        (ops.map ListOp.ref).Sublist (refsFor (walkNode freshCtx demoTree).2.2 1) →
        (runListOps ops B).isSome :=
  change_refs_found_total demoTree (by decide) (by decide) 1 (by decide)
